import Mathlib

/-
Formal model of the geohash variant implemented in src/latlon-geohash.js.

Numbers.  Every quantity manipulated by encode and bounds is of the form
m + j * 30 / 2 ^ k with m one of the integer domain corners, so for the hash
lengths involved it is exactly representable in IEEE double precision (well
inside the 53-bit mantissa) and the JavaScript floating-point arithmetic of
those functions is exact.  It is therefore modelled by rational arithmetic.

Strings.  JavaScript strings are modelled as List Char, wrapped into String
at the public interface.  A lookup miss in one of the object tables yields
the JavaScript value undefined, which the source then concatenates into a
string, producing the text undefined; this is modelled by Option with an
explicit fallback list of characters.  NaN, produced by parseInt when no
digit is found and propagated by arithmetic, is modelled by Option Int with
none playing the role of NaN, and its string conversion produces NaN as in
JavaScript.
-/

namespace Geohash

/-- Rectangle of latitude and longitude bounds as tracked by encode and
bounds; fields in order latMin, latMax, lonMin, lonMax. -/
structure Rect where
  latMin : ℚ
  latMax : ℚ
  lonMin : ℚ
  lonMax : ℚ
  deriving DecidableEq

/-- Initial working rectangle latMin 6, latMax 36, lonMin 68, lonMax 98
(src/latlon-geohash.js lines 89-90 and lines 226-227). -/
def rect0 : Rect := ⟨6, 36, 68, 98⟩

/-- Base16 map of the source: the sixteen characters 0123456789abcdef. -/
def base16 : List Char := "0123456789abcdef".data

/-- One iteration of the while loop of encode (lines 92-115): bisect the
active axis, prepend bit 1 and raise the min bound when the coordinate is
strictly above the midpoint, else bit 0 and lower the max bound, then flip
the axis flag.  The comparison lon greater than lonMid is written with the
midpoint on the left. -/
def encStep (lat lon : ℚ) : Rect × Bool → Bool × (Rect × Bool)
  | (r, true) =>
    let lonMid := (r.lonMin + r.lonMax) / 2
    if lonMid < lon then (true, (⟨r.latMin, r.latMax, lonMid, r.lonMax⟩, false))
    else (false, (⟨r.latMin, r.latMax, r.lonMin, lonMid⟩, false))
  | (r, false) =>
    let latMid := (r.latMin + r.latMax) / 2
    if latMid < lat then (true, (⟨latMid, r.latMax, r.lonMin, r.lonMax⟩, true))
    else (false, (⟨r.latMin, latMid, r.lonMin, r.lonMax⟩, true))

/-- Bits produced by n iterations of the encode loop. -/
def encBits (lat lon : ℚ) : ℕ → Rect × Bool → List Bool
  | 0, _ => []
  | n + 1, st => (encStep lat lon st).1 :: encBits lat lon n (encStep lat lon st).2

/-- State after n iterations of the encode loop. -/
def encState (lat lon : ℚ) : ℕ → Rect × Bool → Rect × Bool
  | 0, st => st
  | n + 1, st => encState lat lon n (encStep lat lon st).2

/-- Value of a bit list, most significant first; mirrors the accumulation
idx = idx * 2 + bit of the encode loop. -/
def bitsVal (bs : List Bool) : ℕ := bs.foldl (fun a b => 2 * a + cond b 1 0) 0

/-- Packing of the bit stream into characters: every 4 bits index into
base16 (lines 117-121). -/
def bitsToChars : List Bool → List Char
  | b0 :: b1 :: b2 :: b3 :: rest => base16.getD (bitsVal [b0, b1, b2, b3]) '?' :: bitsToChars rest
  | _ => []

/-- Character count of the while loop: the loop runs while the accumulated
length is below precision, so it emits the least number of characters that
is at least precision, namely the ceiling clamped to zero. -/
def charCount (precision : ℚ) : ℕ := Int.toNat ⌈precision⌉

/-- Core of Geohash.encode (lines 78-125) for numeric arguments, on
character lists. -/
def encodeData (lat lon precision : ℚ) : List Char :=
  bitsToChars (encBits lat lon (4 * charCount precision) (rect0, true))

/-- Geohash.encode with an explicit numeric precision. -/
def encode (lat lon precision : ℚ) : String := ⟨encodeData lat lon precision⟩

/-- Geohash.encode after Number conversion of its three arguments
(lines 78-82): none models a NaN conversion result, on which the source
throws; any numeric triple is encoded normally. -/
def encodeChecked (lat lon precision : Option ℚ) : Option String :=
  match lat, lon, precision with
  | some a, some o, some p => some (encode a o p)
  | _, _, _ => none

/-- First index of a character in a list, none when absent; mirrors
String.prototype.indexOf with -1 mapped to none (line 230). -/
def idxOf : List Char → Char → Option ℕ
  | [], _ => none
  | x :: rest, c => if x = c then some 0 else (idxOf rest c).map (· + 1)

/-- The four bits of a character index, most significant first; mirrors the
inner loop for n = 3 down to 0 of bounds reading idx shifted by n and
masked by 1 (lines 232-233). -/
def idxBits (idx : ℕ) : List Bool :=
  [((idx >>> 3) &&& 1) == 1, ((idx >>> 2) &&& 1) == 1, ((idx >>> 1) &&& 1) == 1, (idx &&& 1) == 1]

/-- Bit stream read by bounds from a character list: per character, look up
its index in base16 (throw, i.e. none, when absent) and contribute its four
bits. -/
def boundsBits : List Char → Option (List Bool)
  | [] => some []
  | c :: rest =>
    match idxOf base16 c with
    | none => none
    | some idx => (boundsBits rest).map (fun bs => idxBits idx ++ bs)

/-- One bit of the bounds loop (lines 234-250): narrow the active axis to
its upper half on bit 1, to its lower half on bit 0, then flip the flag. -/
def decStep : Rect × Bool → Bool → Rect × Bool
  | (r, true), b =>
    let lonMid := (r.lonMin + r.lonMax) / 2
    if b then (⟨r.latMin, r.latMax, lonMid, r.lonMax⟩, false)
    else (⟨r.latMin, r.latMax, r.lonMin, lonMid⟩, false)
  | (r, false), b =>
    let latMid := (r.latMin + r.latMax) / 2
    if b then (⟨latMid, r.latMax, r.lonMin, r.lonMax⟩, true)
    else (⟨r.latMin, latMid, r.lonMin, r.lonMax⟩, true)

/-- Folding the bounds narrowing over a bit stream. -/
def decBits (st : Rect × Bool) (bs : List Bool) : Rect × Bool := bs.foldl decStep st

/-- Geohash.bounds (lines 214-257) on character lists: reject the empty
string, lowercase, then narrow the initial rectangle bit by bit, rejecting
any character outside base16. -/
def boundsData (l : List Char) : Option Rect :=
  if l.length = 0 then none
  else
    match boundsBits (l.map Char.toLower) with
    | none => none
    | some bs => some (decBits (rect0, true) bs).1

/-- Geohash.bounds; none models the Invalid geohash exception. -/
def bounds (geohash : String) : Option Rect := boundsData geohash.data

/-- Decimal places used by decode (line 152-153): the floor of
2 - log10 span, written with the integer ceiling logarithm, which agrees
with the floating-point evaluation of the source for every span that can
arise (their base-10 logarithms are never within 0.05 of an integer). -/
def toFixedDigits (span : ℚ) : ℤ := 2 - Int.clog 10 span

/-- Rounding of toFixed followed by Number: the nearest multiple of
10 ^ (-d), ties towards the larger value as specified for toFixed on the
positive numbers arising here. -/
def roundToDigits (d : ℤ) (x : ℚ) : ℚ := (⌊x * 10 ^ d + 1 / 2⌋ : ℚ) / (10 : ℚ) ^ d

/-- Geohash.decode (lines 139-156): centre of the bounds cell, each axis
rounded to a number of decimals matching the cell size. -/
def decode (geohash : String) : Option (ℚ × ℚ) :=
  match bounds geohash with
  | none => none
  | some r =>
    some (roundToDigits (toFixedDigits (r.latMax - r.latMin)) ((r.latMin + r.latMax) / 2),
          roundToDigits (toFixedDigits (r.lonMax - r.lonMin)) ((r.lonMin + r.lonMax) / 2))

/-- Auto-precision loop of encode (lines 68-76): try the listed precisions
in order, return the first whose decoded centre equals the input exactly,
else fall back to precision 12.  A decode failure (impossible for the
hashes produced here) would propagate as an exception, modelled by none. -/
def encodeTry (lat lon : ℚ) : List ℕ → Option String
  | [] => some (encode lat lon 12)
  | p :: rest =>
    match decode (encode lat lon (p : ℚ)) with
    | none => none
    | some posn =>
      if posn.1 = lat ∧ posn.2 = lon then some (encode lat lon (p : ℚ)) else encodeTry lat lon rest

/-- Geohash.encode with the precision argument omitted. -/
def encodeAuto (lat lon : ℚ) : Option String :=
  encodeTry lat lon [1, 2, 3, 4, 5, 6, 7, 8, 9, 10, 11, 12]

/-- Modelled from the spec wording of the auto-precision contract, for
comparison with encodeAuto: the smallest precision p in 1..12 whose decoded
centroid equals the input exactly, else precision 12. -/
def autoPrecisionSpec (lat lon : ℚ) : String :=
  match ((List.range 12).map (· + 1)).find?
      (fun (p : ℕ) => decide (decode (encode lat lon (p : ℚ)) = some (lat, lon))) with
  | some p => encode lat lon (p : ℚ)
  | none => encode lat lon 12

/-- The hexBinaryMap table: each of the sixteen lowercase symbols maps to
its four binary digit characters; any other key is absent (undefined). -/
def hexBinaryMap : Char → Option (List Char)
  | '0' => some ['0', '0', '0', '0']
  | '1' => some ['0', '0', '0', '1']
  | '2' => some ['0', '0', '1', '0']
  | '3' => some ['0', '0', '1', '1']
  | '4' => some ['0', '1', '0', '0']
  | '5' => some ['0', '1', '0', '1']
  | '6' => some ['0', '1', '1', '0']
  | '7' => some ['0', '1', '1', '1']
  | '8' => some ['1', '0', '0', '0']
  | '9' => some ['1', '0', '0', '1']
  | 'a' => some ['1', '0', '1', '0']
  | 'b' => some ['1', '0', '1', '1']
  | 'c' => some ['1', '1', '0', '0']
  | 'd' => some ['1', '1', '0', '1']
  | 'e' => some ['1', '1', '1', '0']
  | 'f' => some ['1', '1', '1', '1']
  | _ => none

/-- The binaryHexMap table: each four binary digit key maps to its symbol;
any other key (including the short final chunk of an odd-length string) is
absent. -/
def binaryHexMap : List Char → Option Char
  | ['0', '0', '0', '0'] => some '0'
  | ['0', '0', '0', '1'] => some '1'
  | ['0', '0', '1', '0'] => some '2'
  | ['0', '0', '1', '1'] => some '3'
  | ['0', '1', '0', '0'] => some '4'
  | ['0', '1', '0', '1'] => some '5'
  | ['0', '1', '1', '0'] => some '6'
  | ['0', '1', '1', '1'] => some '7'
  | ['1', '0', '0', '0'] => some '8'
  | ['1', '0', '0', '1'] => some '9'
  | ['1', '0', '1', '0'] => some 'a'
  | ['1', '0', '1', '1'] => some 'b'
  | ['1', '1', '0', '0'] => some 'c'
  | ['1', '1', '0', '1'] => some 'd'
  | ['1', '1', '1', '0'] => some 'e'
  | ['1', '1', '1', '1'] => some 'f'
  | _ => none

/-- Text appended when a table lookup misses: string concatenation coerces
the JavaScript value undefined to this text. -/
def undefinedText : List Char := "undefined".data

/-- Geohash.hexToBinary (lines 166-172): concatenate the table entry of
every character, with the undefined coercion on a miss. -/
def hexToBinary : List Char → List Char
  | [] => []
  | c :: rest => (hexBinaryMap c).getD undefinedText ++ hexToBinary rest

/-- Geohash.binaryToHex (lines 158-164): walk the string four characters at
a time (the final chunk may be shorter) and concatenate the table entry of
each chunk, with the undefined coercion on a miss. -/
def binaryToHex : List Char → List Char
  | [] => []
  | [a] => (binaryHexMap [a]).elim undefinedText (fun ch => [ch])
  | [a, b] => (binaryHexMap [a, b]).elim undefinedText (fun ch => [ch])
  | [a, b, c] => (binaryHexMap [a, b, c]).elim undefinedText (fun ch => [ch])
  | a :: b :: c :: d :: rest =>
    (binaryHexMap [a, b, c, d]).elim undefinedText (fun ch => [ch]) ++ binaryToHex rest

/-- De-interleaving loop of adjacent (lines 178-187): characters at even
positions form the longitude string, those at odd positions the latitude
string. -/
def deinterleave : List Char → List Char × List Char
  | [] => ([], [])
  | [c] => ([c], [])
  | c1 :: c2 :: rest => (c1 :: (deinterleave rest).1, c2 :: (deinterleave rest).2)

/-- Geohash.leftpad (lines 260-266): prepend the given number of zero
characters. -/
def leftpad (s : List Char) (num : ℕ) : List Char := List.replicate num '0' ++ s

/-- Pairing loop of interleave (lines 275-280) on two strings of equal
length (the callers pad first). -/
def interleaveGo : List Char → List Char → List Char
  | a :: as, b :: bs => a :: b :: interleaveGo as bs
  | _, _ => []

/-- Geohash.interleave (lines 268-281): left-pad the shorter input with
zeros, then alternate characters, longitude first.  The source pads with
two sequential conditionals on the running lengths; exactly one of them can
fire, giving the three cases below. -/
def interleaveData (lngs lats : List Char) : List Char :=
  if lngs.length < lats.length then
    interleaveGo (leftpad lngs (lats.length - lngs.length)) lats
  else if lats.length < lngs.length then
    interleaveGo lngs (leftpad lats (lngs.length - lats.length))
  else interleaveGo lngs lats

/-- Geohash.interleave on strings. -/
def interleave (lngs lats : String) : String := ⟨interleaveData lngs.data lats.data⟩

/-- Longest leading run of binary digit characters, as consumed by
parseInt with radix 2. -/
def leadingBinDigits : List Char → List Char
  | [] => []
  | c :: rest => if c = '0' ∨ c = '1' then c :: leadingBinDigits rest else []

/-- Value of a string of binary digit characters, most significant first. -/
def bitsValC (l : List Char) : ℕ := l.foldl (fun a c => 2 * a + (if c = '1' then 1 else 0)) 0

/-- Value parsed by parseInt radix 2 from a digit-led string: none (NaN)
when no leading digit exists. -/
def parseBin (s : List Char) : Option ℤ :=
  if leadingBinDigits s = [] then none else some ((bitsValC (leadingBinDigits s) : ℤ))

/-- JavaScript parseInt with radix 2: an optional sign followed by the
longest run of binary digits; NaN (none) when that run is empty. -/
def jsParseInt2 : List Char → Option ℤ
  | [] => parseBin []
  | c :: rest =>
    if c = '-' then (parseBin rest).map Neg.neg
    else if c = '+' then parseBin rest
    else parseBin (c :: rest)

/-- Binary digit characters of a positive number, accumulator form; the
fuel only needs to cover one halving per bit and is taken to be the number
itself. -/
def natToBinAux : ℕ → ℕ → List Char → List Char
  | 0, _, acc => acc
  | fuel + 1, n, acc =>
    if n = 0 then acc
    else natToBinAux fuel (n / 2) ((if n % 2 = 1 then '1' else '0') :: acc)

/-- Number.prototype.toString with radix 2 on a natural number. -/
def natToBin (n : ℕ) : List Char := if n = 0 then ['0'] else natToBinAux n n []

/-- Reference form of the binary digit expansion, most significant digit
first and empty for zero; the fuelled accumulator function above equals it,
which the proofs use. -/
def natToBinCore : ℕ → List Char
  | 0 => []
  | n + 1 => natToBinCore ((n + 1) / 2) ++ [if (n + 1) % 2 = 1 then '1' else '0']
decreasing_by exact Nat.div_lt_self (by omega) (by omega)

/-- Number.prototype.toString with radix 2 on a JavaScript number: NaN
prints as NaN, a negative integer as a minus sign followed by the digits of
its absolute value. -/
def jsToString2 : Option ℤ → List Char
  | none => "NaN".data
  | some n => if n < 0 then '-' :: natToBin (-n).toNat else natToBin n.toNat

/-- Geohash.adjacent (lines 175-203): split the binary expansion of the
hash into the longitude and latitude bit strings, step the integer of the
requested axis by one, re-interleave and re-encode.  The switch has no
default; neighbours only calls it with the four cardinal directions, and
the fall-through (the JavaScript value undefined) is represented by its
string coercion. -/
def adjacentData (geohash : List Char) (direction : String) : List Char :=
  let value := hexToBinary geohash
  let lngs := (deinterleave value).1
  let lats := (deinterleave value).2
  let lngNum := jsParseInt2 lngs
  let latNum := jsParseInt2 lats
  let leftLng := jsToString2 (lngNum.map (fun v => v - 1))
  let rightLng := jsToString2 (lngNum.map (fun v => v + 1))
  let upLat := jsToString2 (latNum.map (fun v => v + 1))
  let downLat := jsToString2 (latNum.map (fun v => v - 1))
  if direction = "n" then binaryToHex (interleaveData lngs upLat)
  else if direction = "e" then binaryToHex (interleaveData rightLng lats)
  else if direction = "w" then binaryToHex (interleaveData leftLng lats)
  else if direction = "s" then binaryToHex (interleaveData lngs downLat)
  else undefinedText

/-- Geohash.adjacent on strings. -/
def adjacent (geohash direction : String) : String := ⟨adjacentData geohash.data direction⟩

/-- Return value of Geohash.neighbours: one entry per compass key. -/
structure Neighbours where
  n : String
  ne : String
  e : String
  se : String
  s : String
  sw : String
  w : String
  nw : String
  deriving DecidableEq

/-- Geohash.neighbours (lines 290-301): the four cardinal neighbours and
the four diagonal ones obtained by composing two cardinal steps. -/
def neighbours (geohash : String) : Neighbours :=
  ⟨adjacent geohash "n",
   adjacent (adjacent geohash "n") "e",
   adjacent geohash "e",
   adjacent (adjacent geohash "s") "e",
   adjacent geohash "s",
   adjacent (adjacent geohash "s") "w",
   adjacent geohash "w",
   adjacent (adjacent geohash "n") "w"⟩

/-- Valid geohash in the sense of the spec: non-empty and over the sixteen
lowercase symbols of base16. -/
def validGeohash (s : String) : Prop := s ≠ "" ∧ ∀ c ∈ s.data, c ∈ base16

instance (s : String) : Decidable (validGeohash s) := by
  unfold validGeohash; infer_instance

/-- Strict membership: the coordinate lies strictly above the lower bounds
and at most at the upper bounds of the rectangle, which is exactly the
preimage of a cell under the bisection of encode with its ties broken
downwards. -/
def strictIn (lat lon : ℚ) (r : Rect) : Prop :=
  r.latMin < lat ∧ lat ≤ r.latMax ∧ r.lonMin < lon ∧ lon ≤ r.lonMax

/-- Zero-padding of the binary digits of a number to a given width, as
performed by interleave on the output of toString radix 2. -/
def padTo (n m : ℕ) : List Char := leftpad (natToBin m) (n - (natToBin m).length)

/-- Strict ordering of the corners of a rectangle. -/
def properRect (r : Rect) : Prop := r.latMin < r.latMax ∧ r.lonMin < r.lonMax

/-- Containment of rectangles: a lies within b. -/
def subRect (a b : Rect) : Prop :=
  b.latMin ≤ a.latMin ∧ a.latMax ≤ b.latMax ∧ b.lonMin ≤ a.lonMin ∧ a.lonMax ≤ b.lonMax

/-- Membership of a coordinate in a rectangle, boundaries included. -/
def inRect (lat lon : ℚ) (r : Rect) : Prop :=
  r.latMin ≤ lat ∧ lat ≤ r.latMax ∧ r.lonMin ≤ lon ∧ lon ≤ r.lonMax

lemma subRect_rfl (r : Rect) : subRect r r := ⟨le_rfl, le_rfl, le_rfl, le_rfl⟩

lemma subRect_trans {a b c : Rect} (h1 : subRect a b) (h2 : subRect b c) : subRect a c :=
  ⟨le_trans h2.1 h1.1, le_trans h1.2.1 h2.2.1, le_trans h2.2.2.1 h1.2.2.1,
   le_trans h1.2.2.2 h2.2.2.2⟩

lemma rect0_proper : properRect rect0 := by constructor <;> norm_num [rect0]

lemma decStep_proper {st : Rect × Bool} (h : properRect st.1) (b : Bool) :
    properRect (decStep st b).1 := by
  obtain ⟨r, e⟩ := st
  obtain ⟨h1, h2⟩ := h
  cases e <;> cases b <;> unfold properRect <;> refine ⟨?_, ?_⟩ <;>
    simp [decStep] <;> linarith

lemma decStep_subRect {st : Rect × Bool} (h : properRect st.1) (b : Bool) :
    subRect (decStep st b).1 st.1 := by
  obtain ⟨r, e⟩ := st
  obtain ⟨h1, h2⟩ := h
  cases e <;> cases b <;> unfold subRect <;> refine ⟨?_, ?_, ?_, ?_⟩ <;>
    simp [decStep] <;> linarith

lemma decBits_cons (st : Rect × Bool) (b : Bool) (bs : List Bool) :
    decBits st (b :: bs) = decBits (decStep st b) bs := rfl

lemma decBits_proper_subRect :
    ∀ (bs : List Bool) (st : Rect × Bool), properRect st.1 →
      properRect (decBits st bs).1 ∧ subRect (decBits st bs).1 st.1 := by
  intro bs
  induction bs with
  | nil => intro st h; exact ⟨h, subRect_rfl _⟩
  | cons b rest ih =>
    intro st h
    rw [decBits_cons]
    rcases ih (decStep st b) (decStep_proper h b) with ⟨hp, hs⟩
    exact ⟨hp, subRect_trans hs (decStep_subRect h b)⟩

lemma encStep_decStep (lat lon : ℚ) (st : Rect × Bool) :
    decStep st (encStep lat lon st).1 = (encStep lat lon st).2 := by
  obtain ⟨r, e⟩ := st
  cases e
  case false =>
    by_cases h : (r.latMin + r.latMax) / 2 < lat <;> simp [encStep, decStep, h]
  case true =>
    by_cases h : (r.lonMin + r.lonMax) / 2 < lon <;> simp [encStep, decStep, h]

lemma decBits_encBits (lat lon : ℚ) :
    ∀ (n : ℕ) (st : Rect × Bool),
      decBits st (encBits lat lon n st) = encState lat lon n st := by
  intro n
  induction n with
  | zero => intro st; rfl
  | succ m ih =>
    intro st
    rw [encBits, decBits_cons, encStep_decStep, encState]
    exact ih _

lemma encStep_inRect {lat lon : ℚ} {st : Rect × Bool} (h : inRect lat lon st.1) :
    inRect lat lon (encStep lat lon st).2.1 := by
  obtain ⟨r, e⟩ := st
  obtain ⟨h1, h2, h3, h4⟩ := h
  cases e
  case false =>
    by_cases hc : (r.latMin + r.latMax) / 2 < lat <;>
      unfold inRect <;> refine ⟨?_, ?_, ?_, ?_⟩ <;>
      simp [encStep, hc] <;> linarith
  case true =>
    by_cases hc : (r.lonMin + r.lonMax) / 2 < lon <;>
      unfold inRect <;> refine ⟨?_, ?_, ?_, ?_⟩ <;>
      simp [encStep, hc] <;> linarith

lemma encState_inRect {lat lon : ℚ} :
    ∀ (n : ℕ) (st : Rect × Bool), inRect lat lon st.1 →
      inRect lat lon (encState lat lon n st).1 := by
  intro n
  induction n with
  | zero => intro st h; exact h
  | succ m ih => intro st h; exact ih _ (encStep_inRect h)

lemma encBits_length (lat lon : ℚ) :
    ∀ (n : ℕ) (st : Rect × Bool), (encBits lat lon n st).length = n := by
  intro n
  induction n with
  | zero => intro st; rfl
  | succ m ih => intro st; simp [encBits, ih]

lemma bitsVal4_lt : ∀ b0 b1 b2 b3 : Bool, bitsVal [b0, b1, b2, b3] < 16 := by decide

lemma idxOf_getD : ∀ v : ℕ, v < 16 → idxOf base16 (base16.getD v '?') = some v := by decide

lemma idxBits_bitsVal : ∀ b0 b1 b2 b3 : Bool,
    idxBits (bitsVal [b0, b1, b2, b3]) = [b0, b1, b2, b3] := by decide

lemma getD_mem_base16 : ∀ v : ℕ, v < 16 → base16.getD v '?' ∈ base16 := by decide

lemma toLower_base16 : ∀ c ∈ base16, Char.toLower c = c := by decide

lemma map_toLower_eq_self :
    ∀ l : List Char, (∀ c ∈ l, c ∈ base16) → l.map Char.toLower = l := by
  intro l h
  induction l with
  | nil => rfl
  | cons c rest ih =>
    simp only [List.map_cons, List.cons.injEq]
    exact ⟨toLower_base16 c (h c (by simp)), ih (fun x hx => h x (by simp [hx]))⟩

lemma bitsToChars_length4 :
    ∀ (n : ℕ) (bs : List Bool), bs.length = 4 * n → (bitsToChars bs).length = n := by
  intro n
  induction n with
  | zero =>
    intro bs h
    have hbs : bs = [] := List.length_eq_zero.mp (by omega)
    subst hbs
    rfl
  | succ m ih =>
    intro bs h
    rcases bs with _ | ⟨b0, _ | ⟨b1, _ | ⟨b2, _ | ⟨b3, rest⟩⟩⟩⟩ <;> simp at h <;> try omega
    simp only [bitsToChars, List.length_cons]
    rw [ih rest (by simpa using by omega)]

lemma bitsToChars_mem :
    ∀ (bs : List Bool) (c : Char), c ∈ bitsToChars bs → c ∈ base16 := by
  intro bs
  induction bs using bitsToChars.induct with
  | case1 b0 b1 b2 b3 rest ih =>
    intro c hc
    simp only [bitsToChars, List.mem_cons] at hc
    rcases hc with rfl | hc
    · exact getD_mem_base16 _ (bitsVal4_lt b0 b1 b2 b3)
    · exact ih c hc
  | case2 bs h =>
    intro c hc
    simp [bitsToChars] at hc

lemma boundsBits_bitsToChars :
    ∀ (n : ℕ) (bs : List Bool), bs.length = 4 * n →
      boundsBits (bitsToChars bs) = some bs := by
  intro n
  induction n with
  | zero =>
    intro bs h
    have hbs : bs = [] := List.length_eq_zero.mp (by omega)
    subst hbs
    rfl
  | succ m ih =>
    intro bs h
    rcases bs with _ | ⟨b0, _ | ⟨b1, _ | ⟨b2, _ | ⟨b3, rest⟩⟩⟩⟩ <;> simp at h <;> try omega
    simp only [bitsToChars, boundsBits]
    rw [idxOf_getD _ (bitsVal4_lt b0 b1 b2 b3), ih rest (by omega)]
    simp [idxBits_bitsVal]

lemma charCount_natCast (p : ℕ) : charCount (p : ℚ) = p := by
  simp [charCount]

lemma encodeData_natCast (lat lon : ℚ) (p : ℕ) :
    encodeData lat lon (p : ℚ) = bitsToChars (encBits lat lon (4 * p) (rect0, true)) := by
  rw [encodeData, charCount_natCast]

lemma encode_length (lat lon : ℚ) (p : ℕ) : (encode lat lon (p : ℚ)).length = p := by
  show (encodeData lat lon (p : ℚ)).length = p
  rw [encodeData_natCast]
  exact bitsToChars_length4 p _ (encBits_length lat lon _ _)

lemma bounds_encode (lat lon : ℚ) (p : ℕ) (hp : 1 ≤ p) :
    bounds (encode lat lon (p : ℚ)) = some (encState lat lon (4 * p) (rect0, true)).1 := by
  show boundsData (encodeData lat lon (p : ℚ)) = _
  rw [encodeData_natCast]
  unfold boundsData
  rw [if_neg (by rw [bitsToChars_length4 p _ (encBits_length lat lon _ _)]; omega)]
  rw [map_toLower_eq_self _ (fun c hc => bitsToChars_mem _ c hc)]
  rw [boundsBits_bitsToChars p _ (encBits_length lat lon _ _)]
  simp [decBits_encBits]

/-- Claim C2: for every precision p in 1..12 and every coordinate inside the
working domain (latitude between 6 and 36, longitude between 68 and 98),
the rectangle returned by bounds of the encoding contains the coordinate. -/
theorem claim_C2 (lat lon : ℚ) (p : ℕ) (hp1 : 1 ≤ p) (hp2 : p ≤ 12)
    (hlat1 : 6 ≤ lat) (hlat2 : lat ≤ 36) (hlon1 : 68 ≤ lon) (hlon2 : lon ≤ 98) :
    ∃ r, bounds (encode lat lon (p : ℚ)) = some r ∧
      r.latMin ≤ lat ∧ lat ≤ r.latMax ∧ r.lonMin ≤ lon ∧ lon ≤ r.lonMax := by
  refine ⟨_, bounds_encode lat lon p hp1, ?_⟩
  have h0 : inRect lat lon (rect0, true).1 := by
    refine ⟨?_, ?_, ?_, ?_⟩ <;> simp [rect0] <;> assumption
  exact encState_inRect (4 * p) (rect0, true) h0

/-- Witness for claim C2 at the concrete point latitude 20, longitude 80,
precision 4. -/
theorem claim_C2_witness :
    ∃ r, bounds (encode 20 80 ((4 : ℕ) : ℚ)) = some r ∧
      r.latMin ≤ 20 ∧ (20 : ℚ) ≤ r.latMax ∧ r.lonMin ≤ 80 ∧ (80 : ℚ) ≤ r.lonMax :=
  claim_C2 20 80 4 (by norm_num) (by norm_num) (by norm_num) (by norm_num)
    (by norm_num) (by norm_num)

/-- Claim C6: in the bisection of encode, a coordinate exactly equal to the
current midpoint of the active axis produces bit 0 and the maximum bound of
that axis moves down to the midpoint, on either axis. -/
theorem claim_C6 (lat lon : ℚ) (r : Rect)
    (hlon : lon = (r.lonMin + r.lonMax) / 2) (hlat : lat = (r.latMin + r.latMax) / 2) :
    ((encStep lat lon (r, true)).1 = false ∧
      (encStep lat lon (r, true)).2.1.lonMax = (r.lonMin + r.lonMax) / 2) ∧
    ((encStep lat lon (r, false)).1 = false ∧
      (encStep lat lon (r, false)).2.1.latMax = (r.latMin + r.latMax) / 2) := by
  subst hlon hlat
  refine ⟨⟨?_, ?_⟩, ⟨?_, ?_⟩⟩ <;> simp [encStep]

/-- Witness for claim C6 on the initial rectangle, whose midpoints are the
latitude 21 and the longitude 83. -/
theorem claim_C6_witness :
    (21 : ℚ) = (rect0.latMin + rect0.latMax) / 2 ∧
    (83 : ℚ) = (rect0.lonMin + rect0.lonMax) / 2 ∧
    (((encStep 21 83 (rect0, true)).1 = false ∧
      (encStep 21 83 (rect0, true)).2.1.lonMax = (rect0.lonMin + rect0.lonMax) / 2) ∧
    ((encStep 21 83 (rect0, false)).1 = false ∧
      (encStep 21 83 (rect0, false)).2.1.latMax = (rect0.latMin + rect0.latMax) / 2)) :=
  ⟨by norm_num [rect0], by norm_num [rect0],
    claim_C6 21 83 rect0 (by norm_num [rect0]) (by norm_num [rect0])⟩

/-- Claim C10: encode fails exactly when the numeric conversion of
latitude, longitude or precision yields NaN (modelled by none); for numeric
inputs it always returns a hash. -/
theorem claim_C10 (lat lon precision : Option ℚ) :
    encodeChecked lat lon precision = none ↔
      lat = none ∨ lon = none ∨ precision = none := by
  cases lat <;> cases lon <;> cases precision <;> simp [encodeChecked]

lemma idxOf_eq_none_iff : ∀ (l : List Char) (c : Char), idxOf l c = none ↔ c ∉ l := by
  intro l c
  induction l with
  | nil => simp [idxOf]
  | cons x rest ih =>
    by_cases hx : x = c
    · subst hx
      simp [idxOf]
    · have hcx : ¬c = x := fun h => hx h.symm
      simp [idxOf, hx, hcx, Option.map_eq_none', ih]

lemma boundsBits_eq_none_iff :
    ∀ l : List Char, boundsBits l = none ↔ ∃ c ∈ l, c ∉ base16 := by
  intro l
  induction l with
  | nil => simp [boundsBits]
  | cons c rest ih =>
    cases h : idxOf base16 c with
    | none =>
      have hc : c ∉ base16 := (idxOf_eq_none_iff base16 c).mp h
      simp [boundsBits, h]
      exact Or.inl hc
    | some i =>
      have hc : c ∈ base16 := by
        by_contra hcn
        rw [← idxOf_eq_none_iff base16 c] at hcn
        rw [h] at hcn
        exact Option.noConfusion hcn
      simp [boundsBits, h, Option.map_eq_none', ih, hc]

/-- Claim C7: bounds (and hence decode) rejects a string exactly when it is
empty or contains a character outside the sixteen-symbol alphabet after
lowercasing; no valid hash is rejected. -/
theorem claim_C7 (s : String) :
    bounds s = none ↔ s = "" ∨ ∃ c ∈ s.data, Char.toLower c ∉ base16 := by
  have hempty : s = "" ↔ s.data = [] := by
    rw [String.ext_iff]
  unfold bounds boundsData
  by_cases h0 : s.data.length = 0
  · simp [h0, hempty, List.length_eq_zero.mp h0]
  · rw [if_neg h0]
    have hne : ¬s = "" := fun h => h0 (by simp [hempty.mp h])
    cases hbb : boundsBits (s.data.map Char.toLower) with
    | none =>
      have := (boundsBits_eq_none_iff _).mp hbb
      simp only [List.mem_map] at this
      obtain ⟨c2, ⟨c, hc, rfl⟩, hcn⟩ := this
      simp only [hne, false_or]
      exact ⟨fun _ => ⟨c, hc, hcn⟩, fun _ => trivial⟩
    | some bs =>
      have hnone : ¬(∃ c ∈ s.data, Char.toLower c ∉ base16) := by
        intro ⟨c, hc, hcn⟩
        have : boundsBits (s.data.map Char.toLower) = none := by
          rw [boundsBits_eq_none_iff]
          exact ⟨Char.toLower c, List.mem_map_of_mem _ hc, hcn⟩
        rw [hbb] at this
        exact Option.noConfusion this
      simp [hne, hnone]

lemma boundsBits_of_valid :
    ∀ l : List Char, (∀ c ∈ l, c ∈ base16) →
      ∃ bs, boundsBits l = some bs ∧ bs.length = 4 * l.length := by
  intro l h
  induction l with
  | nil => exact ⟨[], rfl, rfl⟩
  | cons c rest ih =>
    obtain ⟨bs, hbs, hlen⟩ := ih (fun x hx => h x (by simp [hx]))
    cases hidx : idxOf base16 c with
    | none =>
      exact absurd (h c (by simp)) ((idxOf_eq_none_iff base16 c).mp hidx)
    | some i =>
      refine ⟨idxBits i ++ bs, ?_, ?_⟩
      · simp [boundsBits, hidx, hbs]
      · have h4 : (idxBits i).length = 4 := rfl
        simp [h4, hlen]
        omega

lemma bounds_of_valid (s : String) (hv : validGeohash s) :
    ∃ bs, bounds s = some (decBits (rect0, true) bs).1 ∧ bs.length = 4 * s.data.length := by
  obtain ⟨hne, hchars⟩ := hv
  obtain ⟨bs, hbs, hlen⟩ := boundsBits_of_valid s.data hchars
  refine ⟨bs, ?_, hlen⟩
  show boundsData s.data = _
  unfold boundsData
  have hd : s.data ≠ [] := by
    intro h
    exact hne (String.ext h)
  rw [if_neg (fun h => hd (List.length_eq_zero.mp h))]
  rw [map_toLower_eq_self _ hchars, hbs]

/-- Claim C9: for every non-empty valid geohash of length 1 to 12, bounds
returns a rectangle with strictly ordered corners, and the empty string is
rejected as invalid. -/
theorem claim_C9 :
    (∀ s : String, validGeohash s → 1 ≤ s.length → s.length ≤ 12 →
      ∃ r, bounds s = some r ∧ r.latMin < r.latMax ∧ r.lonMin < r.lonMax) ∧
    bounds "" = none := by
  constructor
  · intro s hv _ _
    obtain ⟨bs, hb, _⟩ := bounds_of_valid s hv
    exact ⟨_, hb, (decBits_proper_subRect bs (rect0, true) rect0_proper).1⟩
  · rfl

/-- Witness for claim C9 at the hash a. -/
theorem claim_C9_witness :
    ∃ r, bounds "a" = some r ∧ r.latMin < r.latMax ∧ r.lonMin < r.lonMax :=
  claim_C9.1 "a" (by decide) (by decide) (by decide)

lemma decode_encode_isSome (lat lon : ℚ) (p : ℕ) (hp : 1 ≤ p) :
    ∃ q, decode (encode lat lon (p : ℚ)) = some q := by
  unfold decode
  rw [bounds_encode lat lon p hp]
  exact ⟨_, rfl⟩

lemma encodeTry_eq_find (lat lon : ℚ) :
    ∀ ps : List ℕ, (∀ p ∈ ps, 1 ≤ p) →
      encodeTry lat lon ps =
        some (match ps.find?
            (fun (p : ℕ) => decide (decode (encode lat lon (p : ℚ)) = some (lat, lon))) with
          | some p => encode lat lon (p : ℚ)
          | none => encode lat lon 12) := by
  intro ps
  induction ps with
  | nil => intro _; rfl
  | cons p rest ih =>
    intro h
    obtain ⟨q, hq⟩ := decode_encode_isSome lat lon p (h p (by simp))
    simp only [encodeTry, hq]
    by_cases hm : q.1 = lat ∧ q.2 = lon
    · have hqe : decode (encode lat lon (p : ℚ)) = some (lat, lon) := by
        rw [hq, ← hm.1, ← hm.2]
      rw [List.find?_cons_of_pos _ (by simp [hqe]), if_pos hm]
    · have hqe : ¬decode (encode lat lon (p : ℚ)) = some (lat, lon) := by
        rw [hq]
        intro hcon
        have : q = (lat, lon) := by injection hcon
        exact hm (by rw [this]; exact ⟨rfl, rfl⟩)
      rw [List.find?_cons_of_neg _ (by simp [hqe]), if_neg hm]
      exact ih (fun x hx => h x (by simp [hx]))

/-- Claim C5: with the precision argument omitted, encode returns the
encoding at the smallest precision 1..12 whose decoded centroid equals the
input exactly, and the encoding at precision 12 when no precision
matches. -/
theorem claim_C5 (lat lon : ℚ) : encodeAuto lat lon = some (autoPrecisionSpec lat lon) := by
  unfold encodeAuto autoPrecisionSpec
  rw [show (List.range 12).map (· + 1) = [1, 2, 3, 4, 5, 6, 7, 8, 9, 10, 11, 12] by decide]
  exact encodeTry_eq_find lat lon _ (by decide)

lemma decBits_append (st : Rect × Bool) (a b : List Bool) :
    decBits st (a ++ b) = decBits (decBits st a) b :=
  List.foldl_append _ _ _ _

lemma boundsBits_append {a b : List Char} {xs ys : List Bool}
    (ha : boundsBits a = some xs) (hb : boundsBits b = some ys) :
    boundsBits (a ++ b) = some (xs ++ ys) := by
  induction a generalizing xs with
  | nil =>
    have hx : xs = [] := by
      have h2 := ha
      simp [boundsBits] at h2
      exact h2
    subst hx
    simpa using hb
  | cons c rest ih =>
    cases hidx : idxOf base16 c with
    | none => simp [boundsBits, hidx] at ha
    | some i =>
      cases hrest : boundsBits rest with
      | none => simp [boundsBits, hidx, hrest] at ha
      | some zs =>
        simp only [boundsBits, hidx, hrest, Option.map_some] at ha
        have hxs : xs = idxBits i ++ zs := by
          injection ha with h2
          exact h2.symm
        subst hxs
        simp [boundsBits, hidx, ih hrest, List.append_assoc]

lemma decBits_four (r : Rect) (b0 b1 b2 b3 : Bool) :
    ∃ r2, decBits (r, true) [b0, b1, b2, b3] = (r2, true) ∧
      r2.latMax - r2.latMin = (r.latMax - r.latMin) / 4 ∧
      r2.lonMax - r2.lonMin = (r.lonMax - r.lonMin) / 4 := by
  cases b0 <;> cases b1 <;> cases b2 <;> cases b3 <;>
    exact ⟨_, rfl, by simp [decBits, decStep]; ring, by simp [decBits, decStep]; ring⟩

lemma decBits_chunks :
    ∀ (l : List Char) (bs : List Bool) (r : Rect), boundsBits l = some bs →
      ∃ r2, decBits (r, true) bs = (r2, true) ∧
        r2.latMax - r2.latMin = (r.latMax - r.latMin) / 4 ^ l.length ∧
        r2.lonMax - r2.lonMin = (r.lonMax - r.lonMin) / 4 ^ l.length := by
  intro l
  induction l with
  | nil =>
    intro bs r h
    have : bs = [] := by simpa [boundsBits] using h.symm
    subst this
    exact ⟨r, rfl, by norm_num, by norm_num⟩
  | cons c rest ih =>
    intro bs r h
    cases hidx : idxOf base16 c with
    | none => simp [boundsBits, hidx] at h
    | some i =>
      cases hrest : boundsBits rest with
      | none => simp [boundsBits, hidx, hrest] at h
      | some zs =>
        simp only [boundsBits, hidx, hrest, Option.map_some] at h
        have hbs : bs = idxBits i ++ zs := by
          injection h with h2
          exact h2.symm
        subst hbs
        rw [show idxBits i = [((i >>> 3) &&& 1) == 1, ((i >>> 2) &&& 1) == 1,
          ((i >>> 1) &&& 1) == 1, (i &&& 1) == 1] from rfl]
        rw [decBits_append]
        obtain ⟨r1, hr1, hlat1, hlon1⟩ := decBits_four r _ _ _ _
        rw [hr1]
        obtain ⟨r2, hr2, hlat2, hlon2⟩ := ih zs r1 hrest
        refine ⟨r2, hr2, ?_, ?_⟩
        · rw [hlat2, hlat1, List.length_cons, pow_succ]
          ring
        · rw [hlon2, hlon1, List.length_cons, pow_succ]
          ring

lemma rect0_spans : rect0.latMax - rect0.latMin = 30 ∧ rect0.lonMax - rect0.lonMin = 30 := by
  constructor <;> norm_num [rect0]

lemma bounds_valid_spans (s : String) (hv : validGeohash s) :
    ∃ bs r, boundsBits s.data = some bs ∧ bounds s = some r ∧
      r.latMax - r.latMin = 30 / 4 ^ s.length ∧ r.lonMax - r.lonMin = 30 / 4 ^ s.length ∧
      decBits (rect0, true) bs = (r, true) ∧ bs.length = 4 * s.length := by
  obtain ⟨hne, hchars⟩ := hv
  obtain ⟨bs, hbs, hblen⟩ := boundsBits_of_valid s.data hchars
  obtain ⟨r, hr, hlat, hlon⟩ := decBits_chunks s.data bs rect0 hbs
  refine ⟨bs, r, hbs, ?_, ?_, ?_, hr, hblen⟩
  · show boundsData s.data = _
    unfold boundsData
    have hd : s.data ≠ [] := fun h => hne (String.ext h)
    rw [if_neg (fun h => hd (List.length_eq_zero.mp h))]
    rw [map_toLower_eq_self _ hchars, hbs]
    simp [hr]
  · rw [hlat, rect0_spans.1]; rfl
  · rw [hlon, rect0_spans.2]; rfl

/-- Claim C8: the cell of a valid geohash is strictly contained in the cell
of each of its proper non-empty prefixes: the corners nest and both spans
strictly shrink. -/
theorem claim_C8 (s : String) (hv : validGeohash s) (k : ℕ) (hk1 : 1 ≤ k) (hk2 : k < s.length) :
    ∃ r rp, bounds s = some r ∧ bounds ⟨s.data.take k⟩ = some rp ∧
      rp.latMin ≤ r.latMin ∧ r.latMax ≤ rp.latMax ∧
      rp.lonMin ≤ r.lonMin ∧ r.lonMax ≤ rp.lonMax ∧
      r.latMax - r.latMin < rp.latMax - rp.latMin ∧
      r.lonMax - r.lonMin < rp.lonMax - rp.lonMin := by
  obtain ⟨hne, hchars⟩ := hv
  have hlen : s.length = s.data.length := rfl
  have hkle : k ≤ s.data.length := by omega
  have htake : (s.data.take k).length = k := by
    rw [List.length_take]
    omega
  have hvpre : validGeohash ⟨s.data.take k⟩ := by
    constructor
    · intro h
      have : s.data.take k = [] := by
        have := congrArg String.data h
        simpa using this
      rw [this] at htake
      simp at htake
      omega
    · intro c hc
      exact hchars c (List.take_subset k s.data hc)
  obtain ⟨bs, r, hbsfull, hbounds, hlatspan, hlonspan, hdec, _⟩ :=
    bounds_valid_spans s ⟨hne, hchars⟩
  obtain ⟨xs, rp, hbspre, hboundsp, hlatp, hlonp, hdecp, _⟩ :=
    bounds_valid_spans ⟨s.data.take k⟩ hvpre
  obtain ⟨ys, hys, _⟩ := boundsBits_of_valid (s.data.drop k)
    (fun c hc => hchars c (List.drop_subset k s.data hc))
  have hsplit : boundsBits s.data = some (xs ++ ys) := by
    have := boundsBits_append hbspre hys
    rwa [List.take_append_drop] at this
  have hbs2 : bs = xs ++ ys := by
    rw [hbsfull] at hsplit
    exact Option.some_injective _ hsplit
  have hrp_proper : properRect rp := by
    have := (decBits_proper_subRect xs (rect0, true) rect0_proper).1
    rwa [hdecp] at this
  have hr_eq : decBits (rp, true) ys = (r, true) := by
    rw [← hdec, hbs2, decBits_append, hdecp]
  have hsub : subRect r rp := by
    have := (decBits_proper_subRect ys (rp, true) hrp_proper).2
    rwa [hr_eq] at this
  have hpow : (4 : ℚ) ^ k < 4 ^ s.length := by
    exact pow_lt_pow_right₀ (by norm_num) hk2
  have hlenp : (⟨s.data.take k⟩ : String).length = k := htake
  have hspan_lt : (30 : ℚ) / 4 ^ s.length < 30 / 4 ^ k := by
    rw [div_lt_div_iff₀ (by positivity) (by positivity)]
    nlinarith [hpow]
  refine ⟨r, rp, hbounds, hboundsp, hsub.1, hsub.2.1, hsub.2.2.1, hsub.2.2.2, ?_, ?_⟩
  · rw [hlatspan, hlatp, hlenp]
    exact hspan_lt
  · rw [hlonspan, hlonp, hlenp]
    exact hspan_lt

lemma encBits_of_strictIn (lat lon : ℚ) :
    ∀ (bs : List Bool) (st : Rect × Bool), properRect st.1 →
      strictIn lat lon (decBits st bs).1 →
      encBits lat lon bs.length st = bs := by
  intro bs
  induction bs with
  | nil => intro st _ _; rfl
  | cons b rest ih =>
    intro st hp hin
    rw [decBits_cons] at hin
    have hp2 : properRect (decStep st b).1 := decStep_proper hp b
    have hfold := (decBits_proper_subRect rest (decStep st b) hp2).2
    have hbit : encStep lat lon st = (b, decStep st b) := by
      obtain ⟨r, e⟩ := st
      obtain ⟨hi1, hi2, hi3, hi4⟩ := hin
      cases e <;> cases b
      · have hmax : (decBits (decStep (r, false) false) rest).1.latMax ≤
            (r.latMin + r.latMax) / 2 := by
          have h2 := hfold.2.1
          simpa [decStep] using h2
        have hcmp : ¬((r.latMin + r.latMax) / 2 < lat) := not_lt.mpr (le_trans hi2 hmax)
        simp [encStep, decStep, hcmp]
      · have hmin : (r.latMin + r.latMax) / 2 ≤
            (decBits (decStep (r, false) true) rest).1.latMin := by
          have h2 := hfold.1
          simpa [decStep] using h2
        have hcmp : (r.latMin + r.latMax) / 2 < lat := lt_of_le_of_lt hmin hi1
        simp [encStep, decStep, hcmp]
      · have hmax : (decBits (decStep (r, true) false) rest).1.lonMax ≤
            (r.lonMin + r.lonMax) / 2 := by
          have h2 := hfold.2.2.2
          simpa [decStep] using h2
        have hcmp : ¬((r.lonMin + r.lonMax) / 2 < lon) := not_lt.mpr (le_trans hi4 hmax)
        simp [encStep, decStep, hcmp]
      · have hmin : (r.lonMin + r.lonMax) / 2 ≤
            (decBits (decStep (r, true) true) rest).1.lonMin := by
          have h2 := hfold.2.2.1
          simpa [decStep] using h2
        have hcmp : (r.lonMin + r.lonMax) / 2 < lon := lt_of_le_of_lt hmin hi3
        simp [encStep, decStep, hcmp]
    simp only [List.length_cons, encBits, hbit]
    exact congrArg (b :: ·) (ih (decStep st b) hp2 hin)

lemma roundToDigits_bounds {lo hi : ℚ} (hlt : lo < hi) :
    lo < roundToDigits (toFixedDigits (hi - lo)) ((lo + hi) / 2) ∧
    roundToDigits (toFixedDigits (hi - lo)) ((lo + hi) / 2) < hi := by
  have hs0 : 0 < hi - lo := sub_pos.mpr hlt
  have hclog : Int.clog 10 (hi - lo) = 2 - toFixedDigits (hi - lo) := by
    unfold toFixedDigits
    ring
  have hus : (10 : ℚ) ^ (-toFixedDigits (hi - lo)) < hi - lo := by
    refine lt_trans (zpow_lt_zpow_right₀ (by norm_num) ?_)
      (Int.zpow_pred_clog_lt_self (by norm_num) hs0)
    rw [hclog]
    omega
  generalize toFixedDigits (hi - lo) = d at hus ⊢
  have ht0 : (0 : ℚ) < 10 ^ d := by positivity
  have hu0 : (0 : ℚ) < 10 ^ (-d) := by positivity
  have hut : (10 : ℚ) ^ d * 10 ^ (-d) = 1 := by
    rw [← zpow_add₀ (by norm_num : (10 : ℚ) ≠ 0)]
    simp
  have hn1 : ((⌊(lo + hi) / 2 * 10 ^ d + 1 / 2⌋ : ℚ)) ≤ (lo + hi) / 2 * 10 ^ d + 1 / 2 :=
    Int.floor_le _
  have hn2 : (lo + hi) / 2 * 10 ^ d + 1 / 2 - 1 < ((⌊(lo + hi) / 2 * 10 ^ d + 1 / 2⌋ : ℚ)) :=
    Int.sub_one_lt_floor _
  have hround : roundToDigits d ((lo + hi) / 2) =
      (⌊(lo + hi) / 2 * 10 ^ d + 1 / 2⌋ : ℚ) * 10 ^ (-d) := by
    rw [roundToDigits, div_eq_mul_inv, zpow_neg]
  rw [hround]
  constructor
  · have key : ((lo + hi) / 2 * 10 ^ d - 1 / 2) * 10 ^ (-d) <
        (⌊(lo + hi) / 2 * 10 ^ d + 1 / 2⌋ : ℚ) * 10 ^ (-d) :=
      mul_lt_mul_of_pos_right (by linarith) hu0
    have expand : ((lo + hi) / 2 * 10 ^ d - 1 / 2) * 10 ^ (-d) =
        (lo + hi) / 2 - 10 ^ (-d) / 2 := by
      calc ((lo + hi) / 2 * 10 ^ d - 1 / 2) * 10 ^ (-d)
          = (lo + hi) / 2 * (10 ^ d * 10 ^ (-d)) - 10 ^ (-d) / 2 := by ring
        _ = (lo + hi) / 2 - 10 ^ (-d) / 2 := by rw [hut]; ring
    rw [expand] at key
    linarith
  · have key : (⌊(lo + hi) / 2 * 10 ^ d + 1 / 2⌋ : ℚ) * 10 ^ (-d) ≤
        ((lo + hi) / 2 * 10 ^ d + 1 / 2) * 10 ^ (-d) :=
      mul_le_mul_of_nonneg_right hn1 hu0.le
    have expand : ((lo + hi) / 2 * 10 ^ d + 1 / 2) * 10 ^ (-d) =
        (lo + hi) / 2 + 10 ^ (-d) / 2 := by
      calc ((lo + hi) / 2 * 10 ^ d + 1 / 2) * 10 ^ (-d)
          = (lo + hi) / 2 * (10 ^ d * 10 ^ (-d)) + 10 ^ (-d) / 2 := by ring
        _ = (lo + hi) / 2 + 10 ^ (-d) / 2 := by rw [hut]; ring
    rw [expand] at key
    linarith

lemma idxOf_some_getD : ∀ (l : List Char) (c : Char) (i : ℕ),
    idxOf l c = some i → l.getD i '?' = c := by
  intro l
  induction l with
  | nil => intro c i hcon; exact Option.noConfusion hcon
  | cons x rest ih =>
    intro c i h
    by_cases hx : x = c
    · simp only [idxOf, if_pos hx] at h
      have hi : i = 0 := by injection h with h2; omega
      subst hi
      simpa using hx
    · simp only [idxOf, if_neg hx] at h
      cases hidx : idxOf rest c with
      | none => rw [hidx] at h; exact Option.noConfusion h
      | some j =>
        rw [hidx] at h
        simp at h
        have hi : i = j + 1 := by omega
        subst hi
        simpa using ih c j hidx

lemma idxOf_some_lt : ∀ (l : List Char) (c : Char) (i : ℕ),
    idxOf l c = some i → i < l.length := by
  intro l
  induction l with
  | nil => intro c i hcon; exact Option.noConfusion hcon
  | cons x rest ih =>
    intro c i h
    by_cases hx : x = c
    · simp only [idxOf, if_pos hx] at h
      have hi : i = 0 := by injection h with h2; omega
      subst hi
      simp
    · simp only [idxOf, if_neg hx] at h
      cases hidx : idxOf rest c with
      | none => rw [hidx] at h; exact Option.noConfusion h
      | some j =>
        rw [hidx] at h
        simp at h
        have hi : i = j + 1 := by omega
        subst hi
        have := ih c j hidx
        simp
        omega

lemma bitsVal_idxBits : ∀ i : ℕ, i < 16 → bitsVal (idxBits i) = i := by decide

lemma bitsToChars_boundsBits : ∀ (l : List Char) (bs : List Bool),
    boundsBits l = some bs → bitsToChars bs = l := by
  intro l
  induction l with
  | nil =>
    intro bs h
    have hb : bs = [] := by
      have h2 := h
      simp [boundsBits] at h2
      exact h2
    subst hb
    rfl
  | cons c rest ih =>
    intro bs h
    cases hidx : idxOf base16 c with
    | none => simp [boundsBits, hidx] at h
    | some i =>
      cases hrest : boundsBits rest with
      | none => simp [boundsBits, hidx, hrest] at h
      | some zs =>
        simp only [boundsBits, hidx, hrest, Option.map_some] at h
        have hbs : bs = idxBits i ++ zs := (Option.some_injective _ h).symm
        subst hbs
        have hi16 : i < 16 := by
          have hlt := idxOf_some_lt base16 c i hidx
          have hlen : base16.length = 16 := by decide
          omega
        show bitsToChars (idxBits i ++ zs) = c :: rest
        rw [show idxBits i ++ zs = (((i >>> 3) &&& 1) == 1) :: (((i >>> 2) &&& 1) == 1) ::
          (((i >>> 1) &&& 1) == 1) :: ((i &&& 1) == 1) :: zs from rfl]
        simp only [bitsToChars]
        rw [show [(((i >>> 3) &&& 1) == 1), (((i >>> 2) &&& 1) == 1),
          (((i >>> 1) &&& 1) == 1), ((i &&& 1) == 1)] = idxBits i from rfl]
        rw [bitsVal_idxBits i hi16]
        rw [idxOf_some_getD base16 c i hidx]
        rw [ih zs hrest]

/-- Claim C1: for every valid geohash of length 1 to 12, re-encoding the
rounded centroid returned by decode at the same precision reproduces the
hash. -/
theorem claim_C1 (h : String) (hv : validGeohash h) (hl1 : 1 ≤ h.length)
    (hl2 : h.length ≤ 12) :
    ∃ p : ℚ × ℚ, decode h = some p ∧ encode p.1 p.2 (h.length : ℚ) = h := by
  obtain ⟨bs, r, hbs, hbounds, hlatspan, hlonspan, hdec, hblen⟩ := bounds_valid_spans h hv
  have hproper : properRect r := by
    have h2 := (decBits_proper_subRect bs (rect0, true) rect0_proper).1
    rwa [hdec] at h2
  have hlatb := roundToDigits_bounds hproper.1
  have hlonb := roundToDigits_bounds hproper.2
  refine ⟨(roundToDigits (toFixedDigits (r.latMax - r.latMin)) ((r.latMin + r.latMax) / 2),
    roundToDigits (toFixedDigits (r.lonMax - r.lonMin)) ((r.lonMin + r.lonMax) / 2)), ?_, ?_⟩
  · simp [decode, hbounds]
  · have hfin : strictIn
        (roundToDigits (toFixedDigits (r.latMax - r.latMin)) ((r.latMin + r.latMax) / 2))
        (roundToDigits (toFixedDigits (r.lonMax - r.lonMin)) ((r.lonMin + r.lonMax) / 2))
        (decBits (rect0, true) bs).1 := by
      rw [hdec]
      exact ⟨hlatb.1, le_of_lt hlatb.2, hlonb.1, le_of_lt hlonb.2⟩
    have henc := encBits_of_strictIn _ _ bs (rect0, true) rect0_proper hfin
    rw [hblen] at henc
    show (⟨encodeData _ _ ((h.length : ℕ) : ℚ)⟩ : String) = h
    rw [encodeData_natCast, henc, bitsToChars_boundsBits h.data bs hbs]

/-- Witness for claim C1 at the hash 3d3d, the encoding of the point with
latitude 20 and longitude 80 at precision 4. -/
theorem claim_C1_witness :
    ∃ p : ℚ × ℚ, decode "3d3d" = some p ∧
      encode p.1 p.2 (("3d3d" : String).length : ℚ) = "3d3d" :=
  claim_C1 "3d3d" (by decide) (by decide) (by decide)

lemma hexBinaryMap_elim : ∀ c ∈ base16,
    hexBinaryMap c = some ((hexBinaryMap c).getD []) ∧
    ((hexBinaryMap c).getD []).length = 4 ∧
    (∀ x ∈ (hexBinaryMap c).getD [], x = '0' ∨ x = '1') ∧
    binaryHexMap ((hexBinaryMap c).getD []) = some c := by decide

lemma hexBinaryMap_spec {c : Char} (hc : c ∈ base16) :
    ∃ l, hexBinaryMap c = some l ∧ l.length = 4 ∧ (∀ x ∈ l, x = '0' ∨ x = '1') ∧
      binaryHexMap l = some c :=
  ⟨(hexBinaryMap c).getD [], hexBinaryMap_elim c hc⟩

lemma binaryHexMap_spec (a b c d : Char) (ha : a = '0' ∨ a = '1') (hb : b = '0' ∨ b = '1')
    (hc : c = '0' ∨ c = '1') (hd : d = '0' ∨ d = '1') :
    ∃ ch, binaryHexMap [a, b, c, d] = some ch ∧ ch ∈ base16 ∧
      hexBinaryMap ch = some [a, b, c, d] := by
  rcases ha with rfl | rfl <;> rcases hb with rfl | rfl <;> rcases hc with rfl | rfl <;>
    rcases hd with rfl | rfl <;> exact ⟨_, rfl, by decide, rfl⟩

lemma hexToBinary_valid : ∀ l : List Char, (∀ c ∈ l, c ∈ base16) →
    (hexToBinary l).length = 4 * l.length ∧ (∀ x ∈ hexToBinary l, x = '0' ∨ x = '1') ∧
    binaryToHex (hexToBinary l) = l := by
  intro l
  induction l with
  | nil => intro _; exact ⟨rfl, by simp [hexToBinary], rfl⟩
  | cons c rest ih =>
    intro hv
    obtain ⟨chunk, hmap, hlen4, hdig, hback⟩ := hexBinaryMap_spec (hv c (by simp))
    obtain ⟨ihlen, ihdig, ihback⟩ := ih (fun x hx => hv x (by simp [hx]))
    have hexp : hexToBinary (c :: rest) = chunk ++ hexToBinary rest := by
      simp [hexToBinary, hmap]
    refine ⟨?_, ?_, ?_⟩
    · rw [hexp]
      simp [hlen4, ihlen]
      ring
    · rw [hexp]
      intro x hx
      rcases List.mem_append.mp hx with hm | hm
      exacts [hdig x hm, ihdig x hm]
    · rw [hexp]
      obtain ⟨a, b, c2, d, rfl⟩ : ∃ a b c2 d, chunk = [a, b, c2, d] := by
        rcases chunk with _ | ⟨a, _ | ⟨b, _ | ⟨c2, _ | ⟨d, _ | _⟩⟩⟩⟩ <;> simp at hlen4
        exact ⟨_, _, _, _, rfl⟩
      simp only [List.cons_append, List.nil_append, binaryToHex, hback]
      simp [ihback]

lemma binaryToHex_valid : ∀ (n : ℕ) (w : List Char), w.length = 4 * n →
    (∀ x ∈ w, x = '0' ∨ x = '1') →
    hexToBinary (binaryToHex w) = w ∧ (∀ c ∈ binaryToHex w, c ∈ base16) ∧
    (binaryToHex w).length = n := by
  intro n
  induction n with
  | zero =>
    intro w h hd
    have hw : w = [] := List.length_eq_zero.mp (by omega)
    subst hw
    exact ⟨rfl, by simp [binaryToHex], rfl⟩
  | succ m ih =>
    intro w h hd
    rcases w with _ | ⟨a, _ | ⟨b, _ | ⟨c, _ | ⟨d, rest⟩⟩⟩⟩ <;> simp at h <;> try omega
    obtain ⟨ch, hch, hchmem, hchinv⟩ := binaryHexMap_spec a b c d (hd a (by simp))
      (hd b (by simp)) (hd c (by simp)) (hd d (by simp))
    obtain ⟨ih1, ih2, ih3⟩ := ih rest (by omega) (fun x hx => hd x (by simp [hx]))
    have heq : binaryToHex (a :: b :: c :: d :: rest) = ch :: binaryToHex rest := by
      simp [binaryToHex, hch]
    refine ⟨?_, ?_, ?_⟩
    · rw [heq]
      simp only [hexToBinary, hchinv, Option.getD_some]
      rw [ih1]
      rfl
    · rw [heq]
      intro t ht
      rcases List.mem_cons.mp ht with rfl | hm
      exacts [hchmem, ih2 t hm]
    · rw [heq]
      simp [ih3]

lemma deinterleave_pair : ∀ (a b : List Char), a.length = b.length →
    deinterleave (interleaveGo a b) = (a, b) := by
  intro a
  induction a with
  | nil =>
    intro b h
    have hb : b = [] := List.length_eq_zero.mp (by simpa using h.symm)
    subst hb
    rfl
  | cons x as ih =>
    intro b h
    cases b with
    | nil => simp at h
    | cons y bs =>
      have h2 : as.length = bs.length := by simpa using h
      simp [interleaveGo, deinterleave, ih bs h2]

lemma interleaveGo_len : ∀ (a b : List Char), a.length = b.length →
    (interleaveGo a b).length = 2 * a.length := by
  intro a
  induction a with
  | nil => intro b _; simp [interleaveGo]
  | cons x as ih =>
    intro b h
    cases b with
    | nil => simp at h
    | cons y bs =>
      have h2 : as.length = bs.length := by simpa using h
      simp [interleaveGo, ih bs h2]
      ring

lemma interleaveGo_mem : ∀ (a b : List Char) (x : Char), x ∈ interleaveGo a b →
    x ∈ a ∨ x ∈ b := by
  intro a
  induction a with
  | nil => intro b x hx; simp [interleaveGo] at hx
  | cons c as ih =>
    intro b x hx
    cases b with
    | nil => simp [interleaveGo] at hx
    | cons y bs =>
      simp only [interleaveGo, List.mem_cons] at hx
      rcases hx with rfl | rfl | hx
      · exact Or.inl (by simp)
      · exact Or.inr (by simp)
      · rcases ih bs x hx with hm | hm
        · exact Or.inl (by simp [hm])
        · exact Or.inr (by simp [hm])

lemma leftpad_length (s2 : List Char) (k : ℕ) : (leftpad s2 k).length = k + s2.length := by
  simp [leftpad]

lemma interleaveData_left (x a : List Char) (h : x.length ≤ a.length) :
    interleaveData x a = interleaveGo (leftpad x (a.length - x.length)) a := by
  unfold interleaveData
  by_cases hlt : x.length < a.length
  · rw [if_pos hlt]
  · have hx : x.length = a.length := le_antisymm h (not_lt.mp hlt)
    rw [if_neg hlt, if_neg (by omega), show a.length - x.length = 0 by omega]
    simp [leftpad]

lemma interleaveData_right (a x : List Char) (h : x.length ≤ a.length) :
    interleaveData a x = interleaveGo a (leftpad x (a.length - x.length)) := by
  unfold interleaveData
  by_cases hlt : x.length < a.length
  · rw [if_neg (by omega), if_pos hlt]
  · have hx : x.length = a.length := le_antisymm h (not_lt.mp hlt)
    rw [if_neg (by omega), if_neg (by omega), show a.length - x.length = 0 by omega]
    simp [leftpad]

lemma leadingBinDigits_all : ∀ l : List Char, (∀ x ∈ l, x = '0' ∨ x = '1') →
    leadingBinDigits l = l := by
  intro l
  induction l with
  | nil => intro _; rfl
  | cons c rest ih =>
    intro hd
    simp only [leadingBinDigits, if_pos (hd c (by simp))]
    rw [ih (fun x hx => hd x (by simp [hx]))]

lemma parseBin_digits (l : List Char) (hne : l ≠ []) (hd : ∀ x ∈ l, x = '0' ∨ x = '1') :
    parseBin l = some ((bitsValC l : ℤ)) := by
  unfold parseBin
  rw [leadingBinDigits_all l hd, if_neg hne]

lemma jsParseInt2_digits (l : List Char) (hne : l ≠ []) (hd : ∀ x ∈ l, x = '0' ∨ x = '1') :
    jsParseInt2 l = some ((bitsValC l : ℤ)) := by
  cases l with
  | nil => exact absurd rfl hne
  | cons c rest =>
    have hc := hd c (by simp)
    have h1 : ¬c = '-' := by rcases hc with rfl | rfl <;> decide
    have h2 : ¬c = '+' := by rcases hc with rfl | rfl <;> decide
    simp only [jsParseInt2, if_neg h1, if_neg h2]
    exact parseBin_digits _ (by simp) hd

lemma bitsValC_acc : ∀ (l : List Char) (a : ℕ),
    l.foldl (fun a c => 2 * a + (if c = '1' then 1 else 0)) a =
      a * 2 ^ l.length + bitsValC l := by
  intro l
  induction l with
  | nil => intro a; simp [bitsValC]
  | cons c rest ih =>
    intro a
    show rest.foldl _ _ = _
    rw [ih]
    have hr : bitsValC (c :: rest) = rest.foldl _ (2 * 0 + (if c = '1' then 1 else 0)) := rfl
    rw [hr, ih, List.length_cons, pow_succ]
    ring

lemma bitsValC_cons (c : Char) (l : List Char) :
    bitsValC (c :: l) = (if c = '1' then 1 else 0) * 2 ^ l.length + bitsValC l := by
  have hr : bitsValC (c :: l) = l.foldl _ (2 * 0 + (if c = '1' then 1 else 0)) := rfl
  rw [hr, bitsValC_acc]
  ring_nf

lemma bitsValC_append (a b : List Char) :
    bitsValC (a ++ b) = bitsValC a * 2 ^ b.length + bitsValC b := by
  have hr : bitsValC (a ++ b) = b.foldl _ (a.foldl _ 0) := List.foldl_append _ _ _ _
  rw [hr, bitsValC_acc]
  rfl

lemma bitsValC_lt : ∀ l : List Char, (∀ x ∈ l, x = '0' ∨ x = '1') →
    bitsValC l < 2 ^ l.length := by
  intro l
  induction l with
  | nil => intro _; simp [bitsValC]
  | cons c rest ih =>
    intro hd
    have ihv := ih (fun x hx => hd x (by simp [hx]))
    rw [bitsValC_cons, List.length_cons, pow_succ]
    by_cases hc : c = '1'
    · rw [if_pos hc]
      generalize (2 : ℕ) ^ rest.length = k at ihv ⊢
      omega
    · rw [if_neg hc]
      generalize (2 : ℕ) ^ rest.length = k at ihv ⊢
      omega

lemma bitsValC_replicate (k : ℕ) (l : List Char) :
    bitsValC (List.replicate k '0' ++ l) = bitsValC l := by
  rw [bitsValC_append]
  have hz : bitsValC (List.replicate k '0') = 0 := by
    induction k with
    | zero => rfl
    | succ m ihm => rw [List.replicate_succ, bitsValC_cons, ihm]; simp
  rw [hz]
  simp

lemma binStr_inj : ∀ (a b : List Char), (∀ x ∈ a, x = '0' ∨ x = '1') →
    (∀ x ∈ b, x = '0' ∨ x = '1') → a.length = b.length → bitsValC a = bitsValC b →
    a = b := by
  intro a
  induction a with
  | nil =>
    intro b _ _ hlen _
    symm
    exact List.length_eq_zero.mp (by simpa using hlen.symm)
  | cons x as ih =>
    intro b hda hdb hlen hval
    cases b with
    | nil => simp at hlen
    | cons y bs =>
      have hlen2 : as.length = bs.length := by simpa using hlen
      rw [bitsValC_cons, bitsValC_cons, hlen2] at hval
      have hva := bitsValC_lt as (fun t ht => hda t (by simp [ht]))
      have hvb := bitsValC_lt bs (fun t ht => hdb t (by simp [ht]))
      rw [hlen2] at hva
      have htail : ∀ t ∈ as, t = '0' ∨ t = '1' := fun t ht => hda t (by simp [ht])
      have htailb : ∀ t ∈ bs, t = '0' ∨ t = '1' := fun t ht => hdb t (by simp [ht])
      rcases hda x (by simp) with rfl | rfl <;> rcases hdb y (by simp) with rfl | rfl
      · simp at hval
        rw [ih bs htail htailb hlen2 hval]
      · exfalso
        simp at hval
        generalize (2 : ℕ) ^ bs.length = k at hval hva hvb
        omega
      · exfalso
        simp at hval
        generalize (2 : ℕ) ^ bs.length = k at hval hva hvb
        omega
      · simp at hval
        rw [ih bs htail htailb hlen2 hval]

lemma natToBinCore_zero : natToBinCore 0 = [] := by
  simp only [natToBinCore]

lemma natToBinCore_succ (m : ℕ) : natToBinCore (m + 1) =
    natToBinCore ((m + 1) / 2) ++ [if (m + 1) % 2 = 1 then '1' else '0'] := by
  simp only [natToBinCore]

lemma natToBinAux_eq_core :
    ∀ (fuel n : ℕ) (acc : List Char), n ≤ fuel →
      natToBinAux fuel n acc = natToBinCore n ++ acc := by
  intro fuel
  induction fuel with
  | zero =>
    intro n acc h
    have hn : n = 0 := by omega
    subst hn
    rw [natToBinCore_zero]
    rfl
  | succ f ih =>
    intro n acc h
    cases n with
    | zero => rw [natToBinCore_zero]; rfl
    | succ m =>
      show natToBinAux f ((m + 1) / 2) _ = _
      rw [ih ((m + 1) / 2) _ (by omega)]
      rw [natToBinCore_succ]
      simp

lemma natToBinCore_digits : ∀ n : ℕ, ∀ x ∈ natToBinCore n, x = '0' ∨ x = '1' := by
  intro n
  induction n using Nat.strong_induction_on with
  | _ n ih =>
    cases n with
    | zero => intro x hx; rw [natToBinCore_zero] at hx; simp at hx
    | succ m =>
      intro x hx
      rw [natToBinCore_succ] at hx
      rcases List.mem_append.mp hx with hm | hm
      · exact ih ((m + 1) / 2) (by omega) x hm
      · simp at hm
        subst hm
        split <;> simp

lemma bitsValC_natToBinCore : ∀ n : ℕ, bitsValC (natToBinCore n) = n := by
  intro n
  induction n using Nat.strong_induction_on with
  | _ n ih =>
    cases n with
    | zero => rw [natToBinCore_zero]; rfl
    | succ m =>
      rw [natToBinCore_succ]
      rw [bitsValC_append, ih ((m + 1) / 2) (by omega)]
      have hlast : bitsValC [if (m + 1) % 2 = 1 then '1' else '0'] = (m + 1) % 2 := by
        by_cases h2 : (m + 1) % 2 = 1
        · rw [if_pos h2, h2]
          rfl
        · rw [if_neg h2]
          have : (m + 1) % 2 = 0 := by omega
          rw [this]
          rfl
      rw [hlast]
      simp
      omega

lemma natToBinCore_length : ∀ (n k : ℕ), n < 2 ^ k → (natToBinCore n).length ≤ k := by
  intro n
  induction n using Nat.strong_induction_on with
  | _ n ih =>
    intro k hk
    cases n with
    | zero => rw [natToBinCore_zero]; simp
    | succ m =>
      have hk1 : 1 ≤ k := by
        by_contra hcon
        have : k = 0 := by omega
        subst this
        simp at hk
      rw [natToBinCore_succ]
      have hdiv : (m + 1) / 2 < 2 ^ (k - 1) := by
        have h2 : 2 ^ k = 2 ^ (k - 1) * 2 := by
          rw [← pow_succ]
          congr 1
          omega
        rw [h2] at hk
        omega
      have := ih ((m + 1) / 2) (by omega) (k - 1) hdiv
      simp
      omega

lemma natToBin_spec (n : ℕ) :
    (∀ x ∈ natToBin n, x = '0' ∨ x = '1') ∧ bitsValC (natToBin n) = n ∧
    natToBin n ≠ [] ∧ ∀ k, 1 ≤ k → n < 2 ^ k → (natToBin n).length ≤ k := by
  by_cases hn : n = 0
  · subst hn
    refine ⟨by decide, rfl, by decide, ?_⟩
    intro k hk _
    simpa using hk
  · have heq : natToBin n = natToBinCore n := by
      unfold natToBin
      rw [if_neg hn, natToBinAux_eq_core n n [] le_rfl]
      simp
    rw [heq]
    refine ⟨natToBinCore_digits n, bitsValC_natToBinCore n, ?_, ?_⟩
    · obtain ⟨m, rfl⟩ : ∃ m, n = m + 1 := ⟨n - 1, by omega⟩
      rw [natToBinCore_succ]
      simp
    · intro k _ hk
      exact natToBinCore_length n k hk

lemma padTo_spec (n m : ℕ) (hn : 1 ≤ n) (hm : m < 2 ^ n) :
    (padTo n m).length = n ∧ (∀ x ∈ padTo n m, x = '0' ∨ x = '1') ∧
    bitsValC (padTo n m) = m ∧ padTo n m ≠ [] := by
  obtain ⟨hdig, hval, hne, hlen⟩ := natToBin_spec m
  have hle : (natToBin m).length ≤ n := hlen n hn hm
  unfold padTo leftpad
  refine ⟨?_, ?_, ?_, ?_⟩
  · simp
    omega
  · intro x hx
    rcases List.mem_append.mp hx with hm2 | hm2
    · left
      exact List.eq_of_mem_replicate hm2
    · exact hdig x hm2
  · show bitsValC (List.replicate _ '0' ++ natToBin m) = m
    rw [bitsValC_replicate]
    exact hval
  · intro hcon
    rw [List.append_eq_nil] at hcon
    exact hne hcon.2

lemma jsToString2_nat (m : ℕ) : jsToString2 (some ((m : ℤ))) = natToBin m := by
  simp only [jsToString2]
  rw [if_neg (not_lt.mpr (Int.natCast_nonneg m))]
  simp

lemma deinterleave_len : ∀ v : List Char,
    (deinterleave v).1.length = (v.length + 1) / 2 ∧
    (deinterleave v).2.length = v.length / 2
  | [] => by simp [deinterleave]
  | [c] => by simp [deinterleave]
  | c1 :: c2 :: rest => by
    obtain ⟨h1, h2⟩ := deinterleave_len rest
    simp [deinterleave, h1, h2]
    omega

lemma deinterleave_mem : ∀ (v : List Char) (x : Char),
    (x ∈ (deinterleave v).1 → x ∈ v) ∧ (x ∈ (deinterleave v).2 → x ∈ v)
  | [] => by simp [deinterleave]
  | [c] => by
    intro x
    simp [deinterleave]
  | c1 :: c2 :: rest => by
    intro x
    obtain ⟨h1, h2⟩ := deinterleave_mem rest x
    constructor
    · intro hx
      rcases List.mem_cons.mp (by simpa [deinterleave] using hx) with rfl | hm
      · simp
      · simp [h1 hm]
    · intro hx
      rcases List.mem_cons.mp (by simpa [deinterleave] using hx) with rfl | hm
      · simp
      · simp [h2 hm]

lemma interleaveGo_deinterleave : ∀ v : List Char, v.length % 2 = 0 →
    interleaveGo (deinterleave v).1 (deinterleave v).2 = v
  | [] => fun _ => rfl
  | [c] => fun h => by simp at h
  | c1 :: c2 :: rest => fun h => by
    have hrest : rest.length % 2 = 0 := by
      simp at h
      omega
    have := interleaveGo_deinterleave rest hrest
    simp [deinterleave, interleaveGo, this]

lemma interleave_valid (lngs lats : List Char) (L : ℕ)
    (h1 : lngs.length = 2 * L) (h2 : lats.length = 2 * L)
    (hd1 : ∀ x ∈ lngs, x = '0' ∨ x = '1') (hd2 : ∀ x ∈ lats, x = '0' ∨ x = '1') :
    hexToBinary (binaryToHex (interleaveGo lngs lats)) = interleaveGo lngs lats ∧
    (∀ c ∈ binaryToHex (interleaveGo lngs lats), c ∈ base16) ∧
    (binaryToHex (interleaveGo lngs lats)).length = L := by
  have hlen : (interleaveGo lngs lats).length = 4 * L := by
    rw [interleaveGo_len lngs lats (h1.trans h2.symm), h1]
    ring
  have hdig : ∀ x ∈ interleaveGo lngs lats, x = '0' ∨ x = '1' := by
    intro x hx
    rcases interleaveGo_mem lngs lats x hx with hm | hm
    exacts [hd1 x hm, hd2 x hm]
  exact binaryToHex_valid L _ hlen hdig

lemma validGeohash_interleave (lngs lats : List Char) (L : ℕ) (hL : 1 ≤ L)
    (h1 : lngs.length = 2 * L) (h2 : lats.length = 2 * L)
    (hd1 : ∀ x ∈ lngs, x = '0' ∨ x = '1') (hd2 : ∀ x ∈ lats, x = '0' ∨ x = '1') :
    validGeohash ⟨binaryToHex (interleaveGo lngs lats)⟩ ∧
    (⟨binaryToHex (interleaveGo lngs lats)⟩ : String).length = L := by
  obtain ⟨_, hmem, hlen⟩ := interleave_valid lngs lats L h1 h2 hd1 hd2
  refine ⟨⟨?_, ?_⟩, hlen⟩
  · intro hcon
    have hdat : binaryToHex (interleaveGo lngs lats) = [] := congrArg String.data hcon
    rw [hdat] at hlen
    simp at hlen
    omega
  · intro c hc
    exact hmem c hc

lemma adjacentData_n (lngs lats : List Char) (L : ℕ) (hL : 1 ≤ L)
    (h1 : lngs.length = 2 * L) (h2 : lats.length = 2 * L)
    (hd1 : ∀ x ∈ lngs, x = '0' ∨ x = '1') (hd2 : ∀ x ∈ lats, x = '0' ∨ x = '1')
    (hstep : bitsValC lats + 1 < 2 ^ (2 * L)) :
    adjacentData (binaryToHex (interleaveGo lngs lats)) "n" =
      binaryToHex (interleaveGo lngs (padTo (2 * L) (bitsValC lats + 1))) := by
  obtain ⟨hhex, _, _⟩ := interleave_valid lngs lats L h1 h2 hd1 hd2
  have hdi : deinterleave (interleaveGo lngs lats) = (lngs, lats) :=
    deinterleave_pair lngs lats (h1.trans h2.symm)
  have hne2 : lats ≠ [] := by
    intro hc
    rw [hc] at h2
    simp at h2
    omega
  have hcast : ((bitsValC lats : ℤ)) + 1 = ((bitsValC lats + 1 : ℕ) : ℤ) := by
    push_cast
    ring
  have hle : (natToBin (bitsValC lats + 1)).length ≤ lngs.length := by
    rw [h1]
    exact (natToBin_spec (bitsValC lats + 1)).2.2.2 (2 * L) (by omega) hstep
  have hmain : adjacentData (binaryToHex (interleaveGo lngs lats)) "n" =
      binaryToHex (interleaveData lngs
        (jsToString2 ((jsParseInt2 lats).map (fun v => v + 1)))) := by
    simp [adjacentData, hhex, hdi]
  rw [hmain, jsParseInt2_digits lats hne2 hd2]
  rw [show (some ((bitsValC lats : ℤ))).map (fun v => v + 1) =
    some ((bitsValC lats : ℤ) + 1) from rfl]
  rw [hcast, jsToString2_nat]
  rw [interleaveData_right lngs (natToBin (bitsValC lats + 1)) hle]
  rw [h1]
  rfl

lemma adjacentData_s (lngs lats : List Char) (L : ℕ) (hL : 1 ≤ L)
    (h1 : lngs.length = 2 * L) (h2 : lats.length = 2 * L)
    (hd1 : ∀ x ∈ lngs, x = '0' ∨ x = '1') (hd2 : ∀ x ∈ lats, x = '0' ∨ x = '1')
    (hpos : 0 < bitsValC lats) :
    adjacentData (binaryToHex (interleaveGo lngs lats)) "s" =
      binaryToHex (interleaveGo lngs (padTo (2 * L) (bitsValC lats - 1))) := by
  obtain ⟨hhex, _, _⟩ := interleave_valid lngs lats L h1 h2 hd1 hd2
  have hdi : deinterleave (interleaveGo lngs lats) = (lngs, lats) :=
    deinterleave_pair lngs lats (h1.trans h2.symm)
  have hne2 : lats ≠ [] := by
    intro hc
    rw [hc] at h2
    simp at h2
    omega
  have hcast : ((bitsValC lats : ℤ)) - 1 = ((bitsValC lats - 1 : ℕ) : ℤ) := by
    omega
  have hlt : bitsValC lats - 1 < 2 ^ (2 * L) := by
    have hb := bitsValC_lt lats hd2
    rw [h2] at hb
    exact lt_of_le_of_lt (Nat.sub_le _ _) hb
  have hle : (natToBin (bitsValC lats - 1)).length ≤ lngs.length := by
    rw [h1]
    exact (natToBin_spec (bitsValC lats - 1)).2.2.2 (2 * L) (by omega) hlt
  have hmain : adjacentData (binaryToHex (interleaveGo lngs lats)) "s" =
      binaryToHex (interleaveData lngs
        (jsToString2 ((jsParseInt2 lats).map (fun v => v - 1)))) := by
    simp [adjacentData, hhex, hdi, show (("s" : String) = "n") = False from by decide,
      show (("s" : String) = "e") = False from by decide,
      show (("s" : String) = "w") = False from by decide]
  rw [hmain, jsParseInt2_digits lats hne2 hd2]
  rw [show (some ((bitsValC lats : ℤ))).map (fun v => v - 1) =
    some ((bitsValC lats : ℤ) - 1) from rfl]
  rw [hcast, jsToString2_nat]
  rw [interleaveData_right lngs (natToBin (bitsValC lats - 1)) hle]
  rw [h1]
  rfl

lemma adjacentData_e (lngs lats : List Char) (L : ℕ) (hL : 1 ≤ L)
    (h1 : lngs.length = 2 * L) (h2 : lats.length = 2 * L)
    (hd1 : ∀ x ∈ lngs, x = '0' ∨ x = '1') (hd2 : ∀ x ∈ lats, x = '0' ∨ x = '1')
    (hstep : bitsValC lngs + 1 < 2 ^ (2 * L)) :
    adjacentData (binaryToHex (interleaveGo lngs lats)) "e" =
      binaryToHex (interleaveGo (padTo (2 * L) (bitsValC lngs + 1)) lats) := by
  obtain ⟨hhex, _, _⟩ := interleave_valid lngs lats L h1 h2 hd1 hd2
  have hdi : deinterleave (interleaveGo lngs lats) = (lngs, lats) :=
    deinterleave_pair lngs lats (h1.trans h2.symm)
  have hne1 : lngs ≠ [] := by
    intro hc
    rw [hc] at h1
    simp at h1
    omega
  have hcast : ((bitsValC lngs : ℤ)) + 1 = ((bitsValC lngs + 1 : ℕ) : ℤ) := by
    push_cast
    ring
  have hle : (natToBin (bitsValC lngs + 1)).length ≤ lats.length := by
    rw [h2]
    exact (natToBin_spec (bitsValC lngs + 1)).2.2.2 (2 * L) (by omega) hstep
  have hmain : adjacentData (binaryToHex (interleaveGo lngs lats)) "e" =
      binaryToHex (interleaveData
        (jsToString2 ((jsParseInt2 lngs).map (fun v => v + 1))) lats) := by
    simp [adjacentData, hhex, hdi, show (("e" : String) = "n") = False from by decide]
  rw [hmain, jsParseInt2_digits lngs hne1 hd1]
  rw [show (some ((bitsValC lngs : ℤ))).map (fun v => v + 1) =
    some ((bitsValC lngs : ℤ) + 1) from rfl]
  rw [hcast, jsToString2_nat]
  rw [interleaveData_left (natToBin (bitsValC lngs + 1)) lats hle]
  rw [h2]
  rfl

lemma adjacentData_w (lngs lats : List Char) (L : ℕ) (hL : 1 ≤ L)
    (h1 : lngs.length = 2 * L) (h2 : lats.length = 2 * L)
    (hd1 : ∀ x ∈ lngs, x = '0' ∨ x = '1') (hd2 : ∀ x ∈ lats, x = '0' ∨ x = '1')
    (hpos : 0 < bitsValC lngs) :
    adjacentData (binaryToHex (interleaveGo lngs lats)) "w" =
      binaryToHex (interleaveGo (padTo (2 * L) (bitsValC lngs - 1)) lats) := by
  obtain ⟨hhex, _, _⟩ := interleave_valid lngs lats L h1 h2 hd1 hd2
  have hdi : deinterleave (interleaveGo lngs lats) = (lngs, lats) :=
    deinterleave_pair lngs lats (h1.trans h2.symm)
  have hne1 : lngs ≠ [] := by
    intro hc
    rw [hc] at h1
    simp at h1
    omega
  have hcast : ((bitsValC lngs : ℤ)) - 1 = ((bitsValC lngs - 1 : ℕ) : ℤ) := by
    omega
  have hlt : bitsValC lngs - 1 < 2 ^ (2 * L) := by
    have hb := bitsValC_lt lngs hd1
    rw [h1] at hb
    exact lt_of_le_of_lt (Nat.sub_le _ _) hb
  have hle : (natToBin (bitsValC lngs - 1)).length ≤ lats.length := by
    rw [h2]
    exact (natToBin_spec (bitsValC lngs - 1)).2.2.2 (2 * L) (by omega) hlt
  have hmain : adjacentData (binaryToHex (interleaveGo lngs lats)) "w" =
      binaryToHex (interleaveData
        (jsToString2 ((jsParseInt2 lngs).map (fun v => v - 1))) lats) := by
    simp [adjacentData, hhex, hdi, show (("w" : String) = "n") = False from by decide,
      show (("w" : String) = "e") = False from by decide]
  rw [hmain, jsParseInt2_digits lngs hne1 hd1]
  rw [show (some ((bitsValC lngs : ℤ))).map (fun v => v - 1) =
    some ((bitsValC lngs : ℤ) - 1) from rfl]
  rw [hcast, jsToString2_nat]
  rw [interleaveData_left (natToBin (bitsValC lngs - 1)) lats hle]
  rw [h2]
  rfl

/-- Claim C4: away from the domain boundary (the de-interleaved longitude
and latitude integers are neither zero nor the maximum for their bit
length), stepping east then west, or north then south, returns the
original hash. -/
theorem claim_C4 (s : String) (hv : validGeohash s)
    (hx0 : bitsValC (deinterleave (hexToBinary s.data)).1 ≠ 0)
    (hxm : bitsValC (deinterleave (hexToBinary s.data)).1 ≠
      2 ^ (deinterleave (hexToBinary s.data)).1.length - 1)
    (hy0 : bitsValC (deinterleave (hexToBinary s.data)).2 ≠ 0)
    (hym : bitsValC (deinterleave (hexToBinary s.data)).2 ≠
      2 ^ (deinterleave (hexToBinary s.data)).2.length - 1) :
    adjacent (adjacent s "e") "w" = s ∧ adjacent (adjacent s "n") "s" = s := by
  obtain ⟨hne, hchars⟩ := hv
  have hdne : s.data ≠ [] := fun hc => hne (String.ext hc)
  have hL : 1 ≤ s.data.length := List.length_pos.mpr hdne
  obtain ⟨hvlen, hvdig, hback⟩ := hexToBinary_valid s.data hchars
  have hdl := deinterleave_len (hexToBinary s.data)
  have hl1 : (deinterleave (hexToBinary s.data)).1.length = 2 * s.data.length := by
    rw [hdl.1, hvlen]
    omega
  have hl2 : (deinterleave (hexToBinary s.data)).2.length = 2 * s.data.length := by
    rw [hdl.2, hvlen]
    omega
  have hdd1 : ∀ x ∈ (deinterleave (hexToBinary s.data)).1, x = '0' ∨ x = '1' :=
    fun x hx => hvdig x ((deinterleave_mem (hexToBinary s.data) x).1 hx)
  have hdd2 : ∀ x ∈ (deinterleave (hexToBinary s.data)).2, x = '0' ∨ x = '1' :=
    fun x hx => hvdig x ((deinterleave_mem (hexToBinary s.data) x).2 hx)
  have hvint := interleaveGo_deinterleave (hexToBinary s.data) (by rw [hvlen]; omega)
  generalize hg : deinterleave (hexToBinary s.data) = pq at hl1 hl2 hdd1 hdd2 hvint hx0 hxm hy0 hym
  obtain ⟨lngs, lats⟩ := pq
  dsimp only at hl1 hl2 hdd1 hdd2 hvint hx0 hxm hy0 hym
  have hsdata : s.data = binaryToHex (interleaveGo lngs lats) := by
    rw [hvint, hback]
  rw [hl1] at hxm
  rw [hl2] at hym
  have hxlt : bitsValC lngs < 2 ^ (2 * s.data.length) := by
    have hb := bitsValC_lt lngs hdd1
    rwa [hl1] at hb
  have hylt : bitsValC lats < 2 ^ (2 * s.data.length) := by
    have hb := bitsValC_lt lats hdd2
    rwa [hl2] at hb
  have hxp1 : bitsValC lngs + 1 < 2 ^ (2 * s.data.length) := by
    generalize 2 ^ (2 * s.data.length) = k at hxlt hxm ⊢
    omega
  have hyp1 : bitsValC lats + 1 < 2 ^ (2 * s.data.length) := by
    generalize 2 ^ (2 * s.data.length) = k at hylt hym ⊢
    omega
  have hx0' : 0 < bitsValC lngs := Nat.pos_of_ne_zero hx0
  have hy0' : 0 < bitsValC lats := Nat.pos_of_ne_zero hy0
  obtain ⟨pl1, pd1, pv1, _⟩ :=
    padTo_spec (2 * s.data.length) (bitsValC lngs + 1) (by omega) hxp1
  obtain ⟨ql1, qd1, qv1, _⟩ :=
    padTo_spec (2 * s.data.length) (bitsValC lats + 1) (by omega) hyp1
  have hpx : padTo (2 * s.data.length) (bitsValC lngs) = lngs := by
    obtain ⟨pl0, pd0, pv0, _⟩ :=
      padTo_spec (2 * s.data.length) (bitsValC lngs) (by omega) hxlt
    exact binStr_inj _ _ pd0 hdd1 (by rw [pl0, hl1]) (by rw [pv0])
  have hpy : padTo (2 * s.data.length) (bitsValC lats) = lats := by
    obtain ⟨pl0, pd0, pv0, _⟩ :=
      padTo_spec (2 * s.data.length) (bitsValC lats) (by omega) hylt
    exact binStr_inj _ _ pd0 hdd2 (by rw [pl0, hl2]) (by rw [pv0])
  constructor
  · have hstep1 := adjacentData_e lngs lats s.data.length hL hl1 hl2 hdd1 hdd2 hxp1
    have hstep2 := adjacentData_w (padTo (2 * s.data.length) (bitsValC lngs + 1)) lats
      s.data.length hL pl1 hl2 pd1 hdd2 (by rw [pv1]; omega)
    rw [pv1] at hstep2
    simp only [Nat.add_sub_cancel] at hstep2
    rw [hpx] at hstep2
    show (⟨adjacentData (adjacentData s.data "e") "w"⟩ : String) = s
    rw [hsdata, hstep1, hstep2, ← hsdata]
  · have hstep1 := adjacentData_n lngs lats s.data.length hL hl1 hl2 hdd1 hdd2 hyp1
    have hstep2 := adjacentData_s lngs (padTo (2 * s.data.length) (bitsValC lats + 1))
      s.data.length hL hl1 ql1 hdd1 qd1 (by rw [qv1]; omega)
    rw [qv1] at hstep2
    simp only [Nat.add_sub_cancel] at hstep2
    rw [hpy] at hstep2
    show (⟨adjacentData (adjacentData s.data "n") "s"⟩ : String) = s
    rw [hsdata, hstep1, hstep2, ← hsdata]

/-- Witness for claim C4 at the hash 3, whose longitude and latitude
integers are both 1 on 2 bits (maximum 3). -/
theorem claim_C4_witness :
    adjacent (adjacent "3" "e") "w" = "3" ∧ adjacent (adjacent "3" "n") "s" = "3" :=
  claim_C4 "3" (by decide) (by decide) (by decide) (by decide) (by decide)

/-- Claim C3, corrected: for a valid geohash whose cell is interior (the
de-interleaved longitude and latitude integers are neither zero nor the
maximum for their bit length), neighbours returns its eight entries keyed
n, ne, e, se, s, sw, w, nw, each a valid geohash of the same length. -/
theorem claim_C3 (s : String) (hv : validGeohash s)
    (hx0 : bitsValC (deinterleave (hexToBinary s.data)).1 ≠ 0)
    (hxm : bitsValC (deinterleave (hexToBinary s.data)).1 ≠
      2 ^ (deinterleave (hexToBinary s.data)).1.length - 1)
    (hy0 : bitsValC (deinterleave (hexToBinary s.data)).2 ≠ 0)
    (hym : bitsValC (deinterleave (hexToBinary s.data)).2 ≠
      2 ^ (deinterleave (hexToBinary s.data)).2.length - 1) :
    (validGeohash (neighbours s).n ∧ (neighbours s).n.length = s.length) ∧
    (validGeohash (neighbours s).ne ∧ (neighbours s).ne.length = s.length) ∧
    (validGeohash (neighbours s).e ∧ (neighbours s).e.length = s.length) ∧
    (validGeohash (neighbours s).se ∧ (neighbours s).se.length = s.length) ∧
    (validGeohash (neighbours s).s ∧ (neighbours s).s.length = s.length) ∧
    (validGeohash (neighbours s).sw ∧ (neighbours s).sw.length = s.length) ∧
    (validGeohash (neighbours s).w ∧ (neighbours s).w.length = s.length) ∧
    (validGeohash (neighbours s).nw ∧ (neighbours s).nw.length = s.length) := by
  obtain ⟨hne, hchars⟩ := hv
  have hdne : s.data ≠ [] := fun hc => hne (String.ext hc)
  have hL : 1 ≤ s.data.length := List.length_pos.mpr hdne
  obtain ⟨hvlen, hvdig, hback⟩ := hexToBinary_valid s.data hchars
  have hdl := deinterleave_len (hexToBinary s.data)
  have hl1 : (deinterleave (hexToBinary s.data)).1.length = 2 * s.data.length := by
    rw [hdl.1, hvlen]
    omega
  have hl2 : (deinterleave (hexToBinary s.data)).2.length = 2 * s.data.length := by
    rw [hdl.2, hvlen]
    omega
  have hdd1 : ∀ x ∈ (deinterleave (hexToBinary s.data)).1, x = '0' ∨ x = '1' :=
    fun x hx => hvdig x ((deinterleave_mem (hexToBinary s.data) x).1 hx)
  have hdd2 : ∀ x ∈ (deinterleave (hexToBinary s.data)).2, x = '0' ∨ x = '1' :=
    fun x hx => hvdig x ((deinterleave_mem (hexToBinary s.data) x).2 hx)
  have hvint := interleaveGo_deinterleave (hexToBinary s.data) (by rw [hvlen]; omega)
  generalize hg : deinterleave (hexToBinary s.data) = pq at hl1 hl2 hdd1 hdd2 hvint hx0 hxm hy0 hym
  obtain ⟨lngs, lats⟩ := pq
  dsimp only at hl1 hl2 hdd1 hdd2 hvint hx0 hxm hy0 hym
  have hsdata : s.data = binaryToHex (interleaveGo lngs lats) := by
    rw [hvint, hback]
  rw [hl1] at hxm
  rw [hl2] at hym
  have hxlt : bitsValC lngs < 2 ^ (2 * s.data.length) := by
    have hb := bitsValC_lt lngs hdd1
    rwa [hl1] at hb
  have hylt : bitsValC lats < 2 ^ (2 * s.data.length) := by
    have hb := bitsValC_lt lats hdd2
    rwa [hl2] at hb
  have hxp1 : bitsValC lngs + 1 < 2 ^ (2 * s.data.length) := by
    generalize 2 ^ (2 * s.data.length) = k at hxlt hxm ⊢
    omega
  have hyp1 : bitsValC lats + 1 < 2 ^ (2 * s.data.length) := by
    generalize 2 ^ (2 * s.data.length) = k at hylt hym ⊢
    omega
  have hx0' : 0 < bitsValC lngs := Nat.pos_of_ne_zero hx0
  have hy0' : 0 < bitsValC lats := Nat.pos_of_ne_zero hy0
  have hxm1 : bitsValC lngs - 1 < 2 ^ (2 * s.data.length) :=
    lt_of_le_of_lt (Nat.sub_le _ _) hxlt
  have hym1 : bitsValC lats - 1 < 2 ^ (2 * s.data.length) :=
    lt_of_le_of_lt (Nat.sub_le _ _) hylt
  obtain ⟨pxl, pxd, pxv, _⟩ :=
    padTo_spec (2 * s.data.length) (bitsValC lngs + 1) (by omega) hxp1
  obtain ⟨qxl, qxd, qxv, _⟩ :=
    padTo_spec (2 * s.data.length) (bitsValC lngs - 1) (by omega) hxm1
  obtain ⟨pyl, pyd, pyv, _⟩ :=
    padTo_spec (2 * s.data.length) (bitsValC lats + 1) (by omega) hyp1
  obtain ⟨qyl, qyd, qyv, _⟩ :=
    padTo_spec (2 * s.data.length) (bitsValC lats - 1) (by omega) hym1
  have hn := adjacentData_n lngs lats s.data.length hL hl1 hl2 hdd1 hdd2 hyp1
  have hs := adjacentData_s lngs lats s.data.length hL hl1 hl2 hdd1 hdd2 hy0'
  have he := adjacentData_e lngs lats s.data.length hL hl1 hl2 hdd1 hdd2 hxp1
  have hw := adjacentData_w lngs lats s.data.length hL hl1 hl2 hdd1 hdd2 hx0'
  have hne2 := adjacentData_e lngs (padTo (2 * s.data.length) (bitsValC lats + 1))
    s.data.length hL hl1 pyl hdd1 pyd hxp1
  have hnw2 := adjacentData_w lngs (padTo (2 * s.data.length) (bitsValC lats + 1))
    s.data.length hL hl1 pyl hdd1 pyd hx0'
  have hse2 := adjacentData_e lngs (padTo (2 * s.data.length) (bitsValC lats - 1))
    s.data.length hL hl1 qyl hdd1 qyd hxp1
  have hsw2 := adjacentData_w lngs (padTo (2 * s.data.length) (bitsValC lats - 1))
    s.data.length hL hl1 qyl hdd1 qyd hx0'
  refine ⟨?_, ?_, ?_, ?_, ?_, ?_, ?_, ?_⟩
  · show validGeohash ⟨adjacentData s.data "n"⟩ ∧
      (⟨adjacentData s.data "n"⟩ : String).length = s.length
    rw [hsdata, hn]
    exact validGeohash_interleave lngs _ s.data.length hL hl1 pyl hdd1 pyd
  · show validGeohash ⟨adjacentData (adjacentData s.data "n") "e"⟩ ∧
      (⟨adjacentData (adjacentData s.data "n") "e"⟩ : String).length = s.length
    rw [hsdata, hn, hne2]
    exact validGeohash_interleave _ _ s.data.length hL pxl pyl pxd pyd
  · show validGeohash ⟨adjacentData s.data "e"⟩ ∧
      (⟨adjacentData s.data "e"⟩ : String).length = s.length
    rw [hsdata, he]
    exact validGeohash_interleave _ lats s.data.length hL pxl hl2 pxd hdd2
  · show validGeohash ⟨adjacentData (adjacentData s.data "s") "e"⟩ ∧
      (⟨adjacentData (adjacentData s.data "s") "e"⟩ : String).length = s.length
    rw [hsdata, hs, hse2]
    exact validGeohash_interleave _ _ s.data.length hL pxl qyl pxd qyd
  · show validGeohash ⟨adjacentData s.data "s"⟩ ∧
      (⟨adjacentData s.data "s"⟩ : String).length = s.length
    rw [hsdata, hs]
    exact validGeohash_interleave lngs _ s.data.length hL hl1 qyl hdd1 qyd
  · show validGeohash ⟨adjacentData (adjacentData s.data "s") "w"⟩ ∧
      (⟨adjacentData (adjacentData s.data "s") "w"⟩ : String).length = s.length
    rw [hsdata, hs, hsw2]
    exact validGeohash_interleave _ _ s.data.length hL qxl qyl qxd qyd
  · show validGeohash ⟨adjacentData s.data "w"⟩ ∧
      (⟨adjacentData s.data "w"⟩ : String).length = s.length
    rw [hsdata, hw]
    exact validGeohash_interleave _ lats s.data.length hL qxl hl2 qxd hdd2
  · show validGeohash ⟨adjacentData (adjacentData s.data "n") "w"⟩ ∧
      (⟨adjacentData (adjacentData s.data "n") "w"⟩ : String).length = s.length
    rw [hsdata, hn, hnw2]
    exact validGeohash_interleave _ _ s.data.length hL qxl pyl qxd pyd

/-- Witness for the corrected claim C3 at the interior hash 3. -/
theorem claim_C3_witness :
    (validGeohash (neighbours "3").n ∧ (neighbours "3").n.length = ("3" : String).length) ∧
    (validGeohash (neighbours "3").ne ∧ (neighbours "3").ne.length = ("3" : String).length) ∧
    (validGeohash (neighbours "3").e ∧ (neighbours "3").e.length = ("3" : String).length) ∧
    (validGeohash (neighbours "3").se ∧ (neighbours "3").se.length = ("3" : String).length) ∧
    (validGeohash (neighbours "3").s ∧ (neighbours "3").s.length = ("3" : String).length) ∧
    (validGeohash (neighbours "3").sw ∧ (neighbours "3").sw.length = ("3" : String).length) ∧
    (validGeohash (neighbours "3").w ∧ (neighbours "3").w.length = ("3" : String).length) ∧
    (validGeohash (neighbours "3").nw ∧ (neighbours "3").nw.length = ("3" : String).length) :=
  claim_C3 "3" (by decide) (by decide) (by decide) (by decide) (by decide)

/-- Counterexample to claim C3 as stated: the hash d is valid, but its
latitude integer is the maximum 3, and the northern entry of its
neighbours is the ten-character string 6undefined, not a valid geohash of
length 1. -/
theorem claim_C3_counterexample :
    validGeohash "d" ∧
    ¬(validGeohash (neighbours "d").n ∧ (neighbours "d").n.length = ("d" : String).length) := by
  decide

/-- Witness for claim C8 at the hash ab with prefix length 1. -/
theorem claim_C8_witness :
    ∃ r rp, bounds "ab" = some r ∧ bounds ⟨("ab" : String).data.take 1⟩ = some rp ∧
      rp.latMin ≤ r.latMin ∧ r.latMax ≤ rp.latMax ∧
      rp.lonMin ≤ r.lonMin ∧ r.lonMax ≤ rp.lonMax ∧
      r.latMax - r.latMin < rp.latMax - rp.latMin ∧
      r.lonMax - r.lonMin < rp.lonMax - rp.lonMin :=
  claim_C8 "ab" (by decide) 1 (by decide) (by decide)

end Geohash
